import Mathlib

/-!
Verification of the MOBGA-AOS core (multi-objective binary GA with adaptive
operator selection) against its natural-language specification.

The development shallowly embeds the Python modules
`src/MOBGA-AOS/src/mobga_aos.py`, `aos.py`, `nsga_methods/nsga2.py`,
`nsga_methods/mutation.py` and `nsga_methods/crossover.py`:

* chromosomes (numpy uint8 0/1 arrays) become `List Bool`;
* objective pairs (numpy float pairs) become `ℚ × ℚ` (the algorithms only
  add, subtract, divide and compare, so exact rationals model the float
  code faithfully for every claim considered here);
* the numpy random generator is replaced by explicitly injected random
  draws (tapes), as the specification itself mandates injected seedable
  randomness;
* the fitness oracle `knn_cross_val_error` is an external collaborator and
  is passed as an abstract function argument.

All definitions are executable; imperative loops are translated into
structural recursion or folds over the same data in the same order.
-/

namespace MOBGA

/-- Pareto dominance for two-objective minimisation, from
`nsga2.dominates` (and the identical `AdaptiveOperatorSelection._dominates`
in `aos.py`): `np.all(f_a <= f_b) and np.any(f_a < f_b)` for the
2-component objective vectors used throughout the program. -/
def dominates (a b : ℚ × ℚ) : Bool :=
  (decide (a.1 ≤ b.1) && decide (a.2 ≤ b.2)) &&
    (decide (a.1 < b.1) || decide (a.2 < b.2))

theorem dominates_irrefl (a : ℚ × ℚ) : dominates a a = false := by
  simp [dominates]

theorem dominates_asymm {a b : ℚ × ℚ} (h : dominates a b = true) :
    dominates b a = false := by
  simp only [dominates, Bool.and_eq_true, Bool.or_eq_true, decide_eq_true_eq] at h
  simp only [dominates, Bool.and_eq_false_iff, Bool.or_eq_false_iff,
    decide_eq_false_iff_not, not_lt, not_le]
  rcases h with ⟨⟨h1, h2⟩, h3 | h3⟩
  · exact Or.inr ⟨le_of_lt h3, h2⟩
  · exact Or.inr ⟨h1, le_of_lt h3⟩

theorem dominates_trans {a b c : ℚ × ℚ} (hab : dominates a b = true)
    (hbc : dominates b c = true) : dominates a c = true := by
  simp only [dominates, Bool.and_eq_true, Bool.or_eq_true, decide_eq_true_eq] at *
  rcases hab with ⟨⟨h1, h2⟩, hs⟩
  rcases hbc with ⟨⟨h3, h4⟩, _⟩
  refine ⟨⟨le_trans h1 h3, le_trans h2 h4⟩, ?_⟩
  rcases hs with h | h
  · exact Or.inl (lt_of_lt_of_le h h3)
  · exact Or.inr (lt_of_lt_of_le h h4)

/-! ## Fitness caching layer (`MOBGA_AOS._evaluate`)

The orchestrator state relevant to evaluation: the fitness cache
(`self._cache : dict[bytes, tuple[float, float]]`, keyed by the exact bit
pattern, embedded as an association list) and the evaluation-budget counter
`self.nFE`. -/

structure EvalState where
  cache : List (List Bool × (ℚ × ℚ))
  nFE : ℕ
  deriving Repr, DecidableEq

/-- `key in self._cache` / `self._cache[key]`: exact-bit-pattern lookup. -/
def cacheLookup (cache : List (List Bool × (ℚ × ℚ))) (key : List Bool) :
    Option (ℚ × ℚ) :=
  (cache.find? (fun e => e.1 == key)).map (·.2)

/-- `MOBGA_AOS._evaluate` (mobga_aos.py lines 57–87).  On a cache miss,
`f2` is the population count of set bits (`float(individual.sum())`); if
`f2 == 0` then `f1 = 100.0` with no oracle call and no `nFE` increment,
otherwise `f1` comes from the k-NN oracle and `nFE` increments by one; the
pair is stored in the cache.  On a hit the stored pair is returned with no
side effect.  `oracle` stands for `knn_cross_val_error` applied to the
fixed training data. -/
def evaluate (oracle : List Bool → ℚ) (s : EvalState) (ind : List Bool) :
    (ℚ × ℚ) × EvalState :=
  match cacheLookup s.cache ind with
  | some v => (v, s)
  | none =>
    let f2 : ℚ := (ind.count true : ℕ)
    if f2 = 0 then
      ((100, f2), { cache := (ind, (100, f2)) :: s.cache, nFE := s.nFE })
    else
      let f1 := oracle ind
      ((f1, f2), { cache := (ind, (f1, f2)) :: s.cache, nFE := s.nFE + 1 })

theorem cacheLookup_insert_self (cache : List (List Bool × (ℚ × ℚ)))
    (k : List Bool) (v : ℚ × ℚ) :
    cacheLookup ((k, v) :: cache) k = some v := by
  simp [cacheLookup, List.find?]

/-- Cache hit: the stored pair is returned and the state is untouched. -/
theorem evaluate_hit (oracle : List Bool → ℚ) (s : EvalState)
    (ind : List Bool) (v : ℚ × ℚ) (h : cacheLookup s.cache ind = some v) :
    evaluate oracle s ind = (v, s) := by
  unfold evaluate
  rw [h]

/-- Cache miss on an all-zero chromosome: the pair `(100, 0)` is stored
and returned, `nFE` unchanged. -/
theorem evaluate_miss_zero (oracle : List Bool → ℚ) (s : EvalState)
    (ind : List Bool) (hmiss : cacheLookup s.cache ind = none)
    (hzero : ind.count true = 0) :
    evaluate oracle s ind =
      ((100, 0), ⟨(ind, (100, 0)) :: s.cache, s.nFE⟩) := by
  have hz : ((ind.count true : ℕ) : ℚ) = 0 := by exact_mod_cast hzero
  unfold evaluate
  rw [hmiss]
  simp [hz]

/-- Cache miss on a chromosome with at least one set bit: the oracle is
called and `nFE` increments by one. -/
theorem evaluate_miss_pos (oracle : List Bool → ℚ) (s : EvalState)
    (ind : List Bool) (hmiss : cacheLookup s.cache ind = none)
    (hbit : ind.count true ≠ 0) :
    evaluate oracle s ind =
      ((oracle ind, ((ind.count true : ℕ) : ℚ)),
        ⟨(ind, (oracle ind, ((ind.count true : ℕ) : ℚ))) :: s.cache,
          s.nFE + 1⟩) := by
  have hz : ((ind.count true : ℕ) : ℚ) ≠ 0 := by
    exact_mod_cast fun h => hbit (by exact_mod_cast h)
  unfold evaluate
  rw [hmiss]
  simp [hz]

/-- After any call to `evaluate`, the argument chromosome is in the cache
with the returned value. -/
theorem evaluate_caches (oracle : List Bool → ℚ) (s : EvalState)
    (ind : List Bool) :
    cacheLookup (evaluate oracle s ind).2.cache ind =
      some (evaluate oracle s ind).1 := by
  cases h : cacheLookup s.cache ind with
  | some v => rw [evaluate_hit oracle s ind v h]; exact h
  | none =>
    by_cases hz : ind.count true = 0
    · rw [evaluate_miss_zero oracle s ind h hz]
      exact cacheLookup_insert_self _ _ _
    · rw [evaluate_miss_pos oracle s ind h hz]
      exact cacheLookup_insert_self _ _ _

/-- A single `evaluate` call changes `nFE` by at most one. -/
theorem evaluate_nFE_le (oracle : List Bool → ℚ) (s : EvalState)
    (ind : List Bool) :
    (evaluate oracle s ind).2.nFE ≤ s.nFE + 1 := by
  cases h : cacheLookup s.cache ind with
  | some v => rw [evaluate_hit oracle s ind v h]; exact Nat.le_succ _
  | none =>
    by_cases hz : ind.count true = 0
    · rw [evaluate_miss_zero oracle s ind h hz]; exact Nat.le_succ _
    · rw [evaluate_miss_pos oracle s ind h hz]

/-- C1.  First call on a never-seen chromosome with at least one set bit
increments `nFE` by exactly one; a repeated call on the bit-identical
chromosome returns the stored objective pair with no side effect at all
(in particular `nFE` increases by zero), so the counter grows by at most
one per distinct never-before-seen chromosome. -/
theorem evaluate_budget_coupling (oracle : List Bool → ℚ) (s : EvalState)
    (ind : List Bool) (hmiss : cacheLookup s.cache ind = none)
    (hbit : ind.count true ≠ 0) :
    (evaluate oracle s ind).2.nFE = s.nFE + 1 ∧
      evaluate oracle (evaluate oracle s ind).2 ind =
        ((evaluate oracle s ind).1, (evaluate oracle s ind).2) := by
  constructor
  · rw [evaluate_miss_pos oracle s ind hmiss hbit]
  · exact evaluate_hit oracle _ ind _ (evaluate_caches oracle s ind)

/-- Witness for C1: calling on `[true]` with an empty cache bumps `nFE`
from 0 to 1, and the second call is a no-op returning the stored pair. -/
theorem evaluate_budget_coupling_witness :
    (evaluate (fun _ => 5) ⟨[], 0⟩ [true]).2.nFE = 0 + 1 ∧
      evaluate (fun _ => 5) (evaluate (fun _ => 5) ⟨[], 0⟩ [true]).2 [true] =
        ((evaluate (fun _ => 5) ⟨[], 0⟩ [true]).1,
          (evaluate (fun _ => 5) ⟨[], 0⟩ [true]).2) :=
  evaluate_budget_coupling (fun _ => 5) ⟨[], 0⟩ [true] (by decide)
    (by decide)

/-- C2.  On a never-seen all-zero chromosome, `evaluate` returns
`(100.0, 0.0)`, leaves `nFE` unchanged, and never consults the fitness
oracle (the result is identical for any two oracles). -/
theorem evaluate_all_zero (oracle oracle' : List Bool → ℚ) (s : EvalState)
    (ind : List Bool) (hmiss : cacheLookup s.cache ind = none)
    (hzero : ind.count true = 0) :
    (evaluate oracle s ind).1 = (100, 0) ∧
      (evaluate oracle s ind).2.nFE = s.nFE ∧
      evaluate oracle s ind = evaluate oracle' s ind := by
  rw [evaluate_miss_zero oracle s ind hmiss hzero,
    evaluate_miss_zero oracle' s ind hmiss hzero]
  exact ⟨rfl, rfl, rfl⟩

/-- Witness for C2: the all-zero chromosome `[false, false]` yields
`(100, 0)` and `nFE` stays 0, independently of the oracle. -/
theorem evaluate_all_zero_witness :
    (evaluate (fun _ => 5) ⟨[], 0⟩ [false, false]).1 = (100, 0) ∧
      (evaluate (fun _ => 5) ⟨[], 0⟩ [false, false]).2.nFE = 0 ∧
      evaluate (fun _ => 5) ⟨[], 0⟩ [false, false] =
        evaluate (fun _ => 37) ⟨[], 0⟩ [false, false] :=
  evaluate_all_zero (fun _ => 5) (fun _ => 37) ⟨[], 0⟩ [false, false]
    (by decide) (by decide)

/-! ## Adaptive operator selection (`aos.py`)

`AdaptiveOperatorSelection` state: probability vector `probs`, running
per-generation counters `n_reward` / `n_penalty`, the `LP × Q` history
matrices `RD` / `PN` and the window position `k`. -/

structure AOSState where
  Q : ℕ
  LP : ℕ
  probs : List ℚ
  n_reward : List ℚ
  n_penalty : List ℚ
  RD : List (List ℚ)
  PN : List (List ℚ)
  k : ℕ
  deriving Repr

/-- `AdaptiveOperatorSelection.__init__`. -/
def AOSState.init (Q LP : ℕ) : AOSState :=
  { Q := Q, LP := LP
    probs := List.replicate Q (1 / (Q : ℚ))
    n_reward := List.replicate Q 0
    n_penalty := List.replicate Q 0
    RD := List.replicate LP (List.replicate Q 0)
    PN := List.replicate LP (List.replicate Q 0)
    k := 0 }

/-- `arr[i] += x` on a float array. -/
def addAt (l : List ℚ) (i : ℕ) (x : ℚ) : List ℚ :=
  l.set i (l.getD i 0 + x)

/-- `self.n_reward[op_idx] += 1`. -/
def rewardOne (s : AOSState) (op : ℕ) : AOSState :=
  { s with n_reward := addAt s.n_reward op 1 }

/-- `self.n_penalty[op_idx] += 1`. -/
def penaltyOne (s : AOSState) (op : ℕ) : AOSState :=
  { s with n_penalty := addAt s.n_penalty op 1 }

/-- `AdaptiveOperatorSelection.credit_assignment` (aos.py 64–114); the
`for child_obj in children_obj` loop over the two children becomes a fold
over the two-element list `[c1Obj, c2Obj]`.  `_dominates` in the source is
the same formula as `nsga2.dominates`, embedded once as `dominates`. -/
def credit_assignment (s : AOSState) (p1Obj p2Obj c1Obj c2Obj : ℚ × ℚ)
    (op : ℕ) : AOSState :=
  if dominates p1Obj p2Obj || dominates p2Obj p1Obj then
    [c1Obj, c2Obj].foldl
      (fun st c =>
        if dominates (if dominates p1Obj p2Obj then p1Obj else p2Obj) c
        then penaltyOne st op else rewardOne st op) s
  else
    [c1Obj, c2Obj].foldl
      (fun st c =>
        if !(dominates p1Obj c) && !(dominates p2Obj c) then rewardOne st op
        else penaltyOne st op) s

/-- Column sums `M.sum(axis=0)` of an `LP × Q` matrix (every row has
length `Q` in every reachable state; `getD _ 0` totalises the access). -/
def colSums (M : List (List ℚ)) (Q : ℕ) : List ℚ :=
  (List.range Q).map (fun q => (M.map (fun row => row.getD q 0)).sum)

/-- `AdaptiveOperatorSelection.DELTA = 1e-4`, the δ of the paper. -/
def DELTA : ℚ := 1 / 10000

/-- The success-rate vector `S4` of `_update_probabilities`
(aos.py 136–167): with `S1 = RD.sum(axis=0)`, `S2 = PN.sum(axis=0)` and
`S3 = np.where(S1 == 0, δ, S1)`, this is the elementwise quotient
`S4 = S1 / (S3 + S2)`, written per index `q < Q` (the numpy elementwise
arithmetic, unrolled pointwise). -/
def successRates (RD PN : List (List ℚ)) (Q : ℕ) : List ℚ :=
  (List.range Q).map (fun q =>
    (colSums RD Q).getD q 0 /
      ((if (colSums RD Q).getD q 0 = 0 then DELTA
        else (colSums RD Q).getD q 0) + (colSums PN Q).getD q 0))

/-- `AdaptiveOperatorSelection._update_probabilities` (aos.py 136–167),
as a pure function from the history matrices to the new probability
vector (the source also zeroes `RD`/`PN` afterwards, which
`end_generation` below performs at the call site): the result is the
uniform vector if `S4.sum() == 0` and `S4 / S4.sum()` otherwise. -/
def update_probabilities (RD PN : List (List ℚ)) (Q : ℕ) : List ℚ :=
  if (successRates RD PN Q).sum = 0 then List.replicate Q (1 / (Q : ℚ))
  else (successRates RD PN Q).map
    (fun x => x / (successRates RD PN Q).sum)

/-- `AdaptiveOperatorSelection.end_generation` (aos.py 116–134). -/
def end_generation (s : AOSState) : AOSState :=
  let s1 : AOSState :=
    { s with
      RD := s.RD.set s.k s.n_reward
      PN := s.PN.set s.k s.n_penalty
      n_reward := List.replicate s.Q 0
      n_penalty := List.replicate s.Q 0
      k := s.k + 1 }
  if s1.k = s1.LP then
    { s1 with
      probs := update_probabilities s1.RD s1.PN s1.Q
      RD := List.replicate s1.LP (List.replicate s1.Q 0)
      PN := List.replicate s1.LP (List.replicate s1.Q 0)
      k := 0 }
  else s1

theorem addAt_length (l : List ℚ) (i : ℕ) (x : ℚ) :
    (addAt l i x).length = l.length := by
  simp [addAt]

theorem addAt_getD_self (l : List ℚ) (i : ℕ) (x : ℚ) (h : i < l.length) :
    (addAt l i x).getD i 0 = l.getD i 0 + x := by
  simp [addAt, List.getD_eq_getElem?_getD, List.getElem?_set_self, h,
    List.getElem?_eq_getElem h]

theorem addAt_getD_other (l : List ℚ) (i q : ℕ) (x : ℚ) (h : q ≠ i) :
    (addAt l i x).getD q 0 = l.getD q 0 := by
  simp [addAt, List.getD_eq_getElem?_getD, List.getElem?_set_ne (Ne.symm h)]

/-- The claim's per-child credit rule: with comparable parents, reward
iff the dominating parent does not dominate the child; with mutually
non-dominated parents, reward iff no parent dominates the child. -/
def rewardCond (p1 p2 c : ℚ × ℚ) : Bool :=
  if dominates p1 p2 || dominates p2 p1 then
    !(dominates (if dominates p1 p2 then p1 else p2) c)
  else !(dominates p1 c) && !(dominates p2 c)

theorem creditRR (s : AOSState) (op : ℕ) (hr : op < s.n_reward.length)
    (_hp : op < s.n_penalty.length) :
    (∀ q, q ≠ op →
        (rewardOne (rewardOne s op) op).n_reward.getD q 0 =
            s.n_reward.getD q 0 ∧
          (rewardOne (rewardOne s op) op).n_penalty.getD q 0 =
            s.n_penalty.getD q 0) ∧
      (rewardOne (rewardOne s op) op).n_reward.getD op 0 =
        s.n_reward.getD op 0 + ((1 : ℚ) + 1) ∧
      (rewardOne (rewardOne s op) op).n_penalty.getD op 0 =
        s.n_penalty.getD op 0 + ((0 : ℚ) + 0) ∧
      (rewardOne (rewardOne s op) op).probs = s.probs ∧
      (rewardOne (rewardOne s op) op).RD = s.RD ∧
      (rewardOne (rewardOne s op) op).PN = s.PN ∧
      (rewardOne (rewardOne s op) op).k = s.k := by
  refine ⟨fun q hq => ⟨?_, rfl⟩, ?_, ?_, rfl, rfl, rfl, rfl⟩
  · show (addAt (addAt s.n_reward op 1) op 1).getD q 0 = s.n_reward.getD q 0
    rw [addAt_getD_other _ _ _ _ hq, addAt_getD_other _ _ _ _ hq]
  · show (addAt (addAt s.n_reward op 1) op 1).getD op 0 =
      s.n_reward.getD op 0 + (1 + 1)
    rw [addAt_getD_self _ _ _ (by rw [addAt_length]; exact hr),
      addAt_getD_self _ _ _ hr, add_assoc]
  · show s.n_penalty.getD op 0 = s.n_penalty.getD op 0 + (0 + 0)
    ring

theorem creditRP (s : AOSState) (op : ℕ) (hr : op < s.n_reward.length)
    (hp : op < s.n_penalty.length) :
    (∀ q, q ≠ op →
        (penaltyOne (rewardOne s op) op).n_reward.getD q 0 =
            s.n_reward.getD q 0 ∧
          (penaltyOne (rewardOne s op) op).n_penalty.getD q 0 =
            s.n_penalty.getD q 0) ∧
      (penaltyOne (rewardOne s op) op).n_reward.getD op 0 =
        s.n_reward.getD op 0 + ((1 : ℚ) + 0) ∧
      (penaltyOne (rewardOne s op) op).n_penalty.getD op 0 =
        s.n_penalty.getD op 0 + ((0 : ℚ) + 1) ∧
      (penaltyOne (rewardOne s op) op).probs = s.probs ∧
      (penaltyOne (rewardOne s op) op).RD = s.RD ∧
      (penaltyOne (rewardOne s op) op).PN = s.PN ∧
      (penaltyOne (rewardOne s op) op).k = s.k := by
  refine ⟨fun q hq => ⟨?_, ?_⟩, ?_, ?_, rfl, rfl, rfl, rfl⟩
  · show (addAt s.n_reward op 1).getD q 0 = s.n_reward.getD q 0
    rw [addAt_getD_other _ _ _ _ hq]
  · show (addAt s.n_penalty op 1).getD q 0 = s.n_penalty.getD q 0
    rw [addAt_getD_other _ _ _ _ hq]
  · show (addAt s.n_reward op 1).getD op 0 = s.n_reward.getD op 0 + (1 + 0)
    rw [addAt_getD_self _ _ _ hr, add_zero]
  · show (addAt s.n_penalty op 1).getD op 0 = s.n_penalty.getD op 0 + (0 + 1)
    rw [addAt_getD_self _ _ _ hp, zero_add]

theorem creditPR (s : AOSState) (op : ℕ) (hr : op < s.n_reward.length)
    (hp : op < s.n_penalty.length) :
    (∀ q, q ≠ op →
        (rewardOne (penaltyOne s op) op).n_reward.getD q 0 =
            s.n_reward.getD q 0 ∧
          (rewardOne (penaltyOne s op) op).n_penalty.getD q 0 =
            s.n_penalty.getD q 0) ∧
      (rewardOne (penaltyOne s op) op).n_reward.getD op 0 =
        s.n_reward.getD op 0 + ((0 : ℚ) + 1) ∧
      (rewardOne (penaltyOne s op) op).n_penalty.getD op 0 =
        s.n_penalty.getD op 0 + ((1 : ℚ) + 0) ∧
      (rewardOne (penaltyOne s op) op).probs = s.probs ∧
      (rewardOne (penaltyOne s op) op).RD = s.RD ∧
      (rewardOne (penaltyOne s op) op).PN = s.PN ∧
      (rewardOne (penaltyOne s op) op).k = s.k := by
  refine ⟨fun q hq => ⟨?_, ?_⟩, ?_, ?_, rfl, rfl, rfl, rfl⟩
  · show (addAt s.n_reward op 1).getD q 0 = s.n_reward.getD q 0
    rw [addAt_getD_other _ _ _ _ hq]
  · show (addAt s.n_penalty op 1).getD q 0 = s.n_penalty.getD q 0
    rw [addAt_getD_other _ _ _ _ hq]
  · show (addAt s.n_reward op 1).getD op 0 = s.n_reward.getD op 0 + (0 + 1)
    rw [addAt_getD_self _ _ _ hr, zero_add]
  · show (addAt s.n_penalty op 1).getD op 0 = s.n_penalty.getD op 0 + (1 + 0)
    rw [addAt_getD_self _ _ _ hp, add_zero]

theorem creditPP (s : AOSState) (op : ℕ) (_hr : op < s.n_reward.length)
    (hp : op < s.n_penalty.length) :
    (∀ q, q ≠ op →
        (penaltyOne (penaltyOne s op) op).n_reward.getD q 0 =
            s.n_reward.getD q 0 ∧
          (penaltyOne (penaltyOne s op) op).n_penalty.getD q 0 =
            s.n_penalty.getD q 0) ∧
      (penaltyOne (penaltyOne s op) op).n_reward.getD op 0 =
        s.n_reward.getD op 0 + ((0 : ℚ) + 0) ∧
      (penaltyOne (penaltyOne s op) op).n_penalty.getD op 0 =
        s.n_penalty.getD op 0 + ((1 : ℚ) + 1) ∧
      (penaltyOne (penaltyOne s op) op).probs = s.probs ∧
      (penaltyOne (penaltyOne s op) op).RD = s.RD ∧
      (penaltyOne (penaltyOne s op) op).PN = s.PN ∧
      (penaltyOne (penaltyOne s op) op).k = s.k := by
  refine ⟨fun q hq => ⟨rfl, ?_⟩, ?_, ?_, rfl, rfl, rfl, rfl⟩
  · show (addAt (addAt s.n_penalty op 1) op 1).getD q 0 =
      s.n_penalty.getD q 0
    rw [addAt_getD_other _ _ _ _ hq, addAt_getD_other _ _ _ _ hq]
  · show s.n_reward.getD op 0 = s.n_reward.getD op 0 + (0 + 0)
    ring
  · show (addAt (addAt s.n_penalty op 1) op 1).getD op 0 =
      s.n_penalty.getD op 0 + (1 + 1)
    rw [addAt_getD_self _ _ _ (by rw [addAt_length]; exact hp),
      addAt_getD_self _ _ _ hp, add_assoc]

/-- C5.  Credit assignment touches only the counters of the operator
actually used, adding per child: in the comparable-parents case a penalty
when the dominating parent dominates the child and a reward otherwise; in
the mutually non-dominated case a reward when no parent dominates the
child and a penalty otherwise (`rewardCond`).  All other AOS state is
unchanged. -/
theorem credit_assignment_rule (s : AOSState) (p1 p2 c1 c2 : ℚ × ℚ)
    (op : ℕ) (hr : op < s.n_reward.length) (hp : op < s.n_penalty.length) :
    (∀ q, q ≠ op →
        (credit_assignment s p1 p2 c1 c2 op).n_reward.getD q 0 =
            s.n_reward.getD q 0 ∧
          (credit_assignment s p1 p2 c1 c2 op).n_penalty.getD q 0 =
            s.n_penalty.getD q 0) ∧
      (credit_assignment s p1 p2 c1 c2 op).n_reward.getD op 0 =
        s.n_reward.getD op 0 +
          ((if rewardCond p1 p2 c1 then (1 : ℚ) else 0) +
            (if rewardCond p1 p2 c2 then (1 : ℚ) else 0)) ∧
      (credit_assignment s p1 p2 c1 c2 op).n_penalty.getD op 0 =
        s.n_penalty.getD op 0 +
          ((if rewardCond p1 p2 c1 then (0 : ℚ) else 1) +
            (if rewardCond p1 p2 c2 then (0 : ℚ) else 1)) ∧
      (credit_assignment s p1 p2 c1 c2 op).probs = s.probs ∧
      (credit_assignment s p1 p2 c1 c2 op).RD = s.RD ∧
      (credit_assignment s p1 p2 c1 c2 op).PN = s.PN ∧
      (credit_assignment s p1 p2 c1 c2 op).k = s.k := by
  rcases Bool.eq_false_or_eq_true (dominates p1 p2 || dominates p2 p1) with
    hpar | hpar
  · rcases Bool.eq_false_or_eq_true
        (dominates (if dominates p1 p2 then p1 else p2) c1) with h1 | h1 <;>
      rcases Bool.eq_false_or_eq_true
        (dominates (if dominates p1 p2 then p1 else p2) c2) with h2 | h2 <;>
      [skip; skip; skip; skip] <;>
    · have ec1 : rewardCond p1 p2 c1 =
          !(dominates (if dominates p1 p2 then p1 else p2) c1) := by
        unfold rewardCond
        simp only [hpar, if_true]
      have ec2 : rewardCond p1 p2 c2 =
          !(dominates (if dominates p1 p2 then p1 else p2) c2) := by
        unfold rewardCond
        simp only [hpar, if_true]
      simp only [credit_assignment, hpar, if_true, List.foldl_cons,
        List.foldl_nil, h1, h2, Bool.false_eq_true, if_false, ec1, ec2,
        Bool.not_true, Bool.not_false]
      first
      | exact creditRR s op hr hp
      | exact creditRP s op hr hp
      | exact creditPR s op hr hp
      | exact creditPP s op hr hp
  · rcases Bool.eq_false_or_eq_true
        (!(dominates p1 c1) && !(dominates p2 c1)) with h1 | h1 <;>
      rcases Bool.eq_false_or_eq_true
        (!(dominates p1 c2) && !(dominates p2 c2)) with h2 | h2 <;>
      [skip; skip; skip; skip] <;>
    · have ec1 : rewardCond p1 p2 c1 =
          (!(dominates p1 c1) && !(dominates p2 c1)) := by
        unfold rewardCond
        simp only [hpar, Bool.false_eq_true, if_false]
      have ec2 : rewardCond p1 p2 c2 =
          (!(dominates p1 c2) && !(dominates p2 c2)) := by
        unfold rewardCond
        simp only [hpar, Bool.false_eq_true, if_false]
      simp only [credit_assignment, hpar, Bool.false_eq_true, if_false,
        List.foldl_cons, List.foldl_nil, h1, h2, if_true, ec1, ec2]
      first
      | exact creditRR s op hr hp
      | exact creditRP s op hr hp
      | exact creditPR s op hr hp
      | exact creditPP s op hr hp

/-- Witness for C5 at concrete objective pairs: parent 1 `(1, 1)`
dominates parent 2 `(2, 2)`; child 1 `(0, 0)` earns a reward and child 2
`(3, 3)` a penalty for operator 1 of 3. -/
theorem credit_assignment_rule_witness :
    (credit_assignment (AOSState.init 3 5) (1, 1) (2, 2) (0, 0) (3, 3)
        1).n_reward.getD 1 0 =
      (AOSState.init 3 5).n_reward.getD 1 0 +
        ((if rewardCond (1, 1) (2, 2) (0, 0) then (1 : ℚ) else 0) +
          (if rewardCond (1, 1) (2, 2) (3, 3) then (1 : ℚ) else 0)) :=
  (credit_assignment_rule (AOSState.init 3 5) (1, 1) (2, 2) (0, 0) (3, 3)
    1 (by decide) (by decide)).2.1

theorem getD_nonneg_of_mem_nonneg {l : List ℚ} (h : ∀ x ∈ l, 0 ≤ x)
    (q : ℕ) : 0 ≤ l.getD q 0 := by
  by_cases hq : q < l.length
  · rw [List.getD_eq_getElem l 0 hq]
    exact h _ (l.getElem_mem hq)
  · rw [List.getD_eq_default l 0 (Nat.le_of_not_lt hq)]

theorem colSums_nonneg {M : List (List ℚ)} (Q : ℕ)
    (hM : ∀ row ∈ M, ∀ x ∈ row, 0 ≤ x) :
    ∀ x ∈ colSums M Q, 0 ≤ x := by
  intro x hx
  simp only [colSums, List.mem_map, List.mem_range] at hx
  obtain ⟨q, _, rfl⟩ := hx
  apply List.sum_nonneg
  intro y hy
  simp only [List.mem_map] at hy
  obtain ⟨row, hrow, rfl⟩ := hy
  exact getD_nonneg_of_mem_nonneg (hM row hrow) q

theorem sum_map_div (l : List ℚ) (c : ℚ) :
    (l.map (fun x => x / c)).sum = l.sum / c := by
  induction l with
  | nil => simp
  | cons a l ih => simp [ih, add_div]

/-- C6.  For every non-negative reward/penalty history and a non-empty
operator pool, the recomputed probability vector (including the uniform
fallback when the total success rate is zero) has only non-negative
entries and sums to exactly 1 (the floating tolerance of the claim is
exact equality in the rational model). -/
theorem update_probabilities_normalized (RD PN : List (List ℚ)) (Q : ℕ)
    (hQ : 0 < Q) (hRD : ∀ row ∈ RD, ∀ x ∈ row, 0 ≤ x)
    (hPN : ∀ row ∈ PN, ∀ x ∈ row, 0 ≤ x) :
    (∀ p ∈ update_probabilities RD PN Q, 0 ≤ p) ∧
      (update_probabilities RD PN Q).sum = 1 := by
  have hS1 := colSums_nonneg (M := RD) Q hRD
  have hS2 := colSums_nonneg (M := PN) Q hPN
  have hS4nn : ∀ x ∈ successRates RD PN Q, 0 ≤ x := by
    intro x hx
    simp only [successRates, List.mem_map, List.mem_range] at hx
    obtain ⟨q, hq, rfl⟩ := hx
    have ha : 0 ≤ (colSums RD Q).getD q 0 :=
      getD_nonneg_of_mem_nonneg hS1 q
    have hb : 0 ≤ (colSums PN Q).getD q 0 :=
      getD_nonneg_of_mem_nonneg hS2 q
    by_cases hz : (colSums RD Q).getD q 0 = 0
    · rw [hz, zero_div]
    · rw [if_neg hz]
      have hpos : 0 < (colSums RD Q).getD q 0 :=
        lt_of_le_of_ne ha (Ne.symm hz)
      positivity
  constructor
  · intro p hp
    unfold update_probabilities at hp
    by_cases ht : (successRates RD PN Q).sum = 0
    · rw [if_pos ht] at hp
      have := List.eq_of_mem_replicate hp
      subst this
      positivity
    · rw [if_neg ht] at hp
      simp only [List.mem_map] at hp
      obtain ⟨x, hx, rfl⟩ := hp
      have h1 : 0 < (successRates RD PN Q).sum :=
        lt_of_le_of_ne (List.sum_nonneg hS4nn) (Ne.symm ht)
      have h2 := hS4nn x hx
      positivity
  · unfold update_probabilities
    by_cases ht : (successRates RD PN Q).sum = 0
    · rw [if_pos ht, List.sum_replicate, nsmul_eq_mul]
      field_simp
    · rw [if_neg ht, sum_map_div, div_self ht]

/-- Witness for C6: two operators, one-generation window with rewards
`[1, 0]` and penalties `[0, 2]` yield a probability vector summing to 1. -/
theorem update_probabilities_normalized_witness :
    (update_probabilities [[1, 0]] [[0, 2]] 2).sum = 1 :=
  (update_probabilities_normalized [[1, 0]] [[0, 2]] 2 (by decide)
    (by decide) (by decide)).2

/-! ## Mutation with feasibility repair (`nsga_methods/mutation.py`) and
population initialisation repair (`MOBGA_AOS._init_population`)

The injected randomness of `uniform_mutation` is the vector of per-gene
uniform draws (`rng.random(len(individual))`) and the repair index
(`rng.integers(0, len(mutated))`). -/

/-- `uniform_mutation(individual, rng, mutation_rate)` (mutation.py
16–45): flip bit `i` iff `draws[i] < rate`; if the flipped result has no
set bit, force one randomly chosen bit to 1. -/
def uniform_mutation (individual : List Bool) (draws : List ℚ)
    (repairPos : ℕ) (rate : ℚ) : List Bool :=
  let flip_mask := draws.map (fun u => decide (u < rate))
  let mutated := List.zipWith xor individual flip_mask
  if mutated.count true = 0 then mutated.set repairPos true else mutated

/-- The per-row repair of `MOBGA_AOS._init_population` (mobga_aos.py
100–112): `if pop[i].sum() == 0: pop[i, rng.integers(0, D)] = 1`. -/
def initRepair (row : List Bool) (pos : ℕ) : List Bool :=
  if row.count true = 0 then row.set pos true else row

/-- `MOBGA_AOS._init_population`: the random `(N, D)` matrix `rows` is
injected, together with the repair indices drawn for each row. -/
def init_population (rows : List (List Bool)) (poss : List ℕ) :
    List (List Bool) :=
  List.zipWith initRepair rows poss

theorem count_true_set_pos (l : List Bool) (pos : ℕ) (h : pos < l.length) :
    1 ≤ (l.set pos true).count true := by
  have hlen : pos < (l.set pos true).length := by simpa using h
  have hget : (l.set pos true).get ⟨pos, hlen⟩ = true := by
    rw [List.get_eq_getElem]
    exact List.getElem_set_self hlen
  have hmem := List.get_mem (l.set pos true) pos hlen
  rw [hget] at hmem
  exact List.count_pos_iff.mpr hmem

/-- C7.  Mutation first flips bits, and only when the flipped result is
all-zero forces one chosen bit to 1 (repair after mutation, never instead
of it); the result always has at least one set bit.  Likewise every row
produced by population initialisation has at least one set bit. -/
theorem mutation_and_init_feasible (individual : List Bool)
    (draws : List ℚ) (repairPos : ℕ) (rate : ℚ)
    (hlen : draws.length = individual.length)
    (hpos : repairPos < individual.length)
    (rows : List (List Bool)) (poss : List ℕ)
    (hrp : rows.length = poss.length)
    (hposs : ∀ i, i < rows.length →
      poss.getD i 0 < (rows.getD i []).length) :
    (1 ≤ (uniform_mutation individual draws repairPos rate).count true ∧
      ((List.zipWith xor individual
          (draws.map (fun u => decide (u < rate)))).count true ≠ 0 →
        uniform_mutation individual draws repairPos rate =
          List.zipWith xor individual
            (draws.map (fun u => decide (u < rate)))) ∧
      ((List.zipWith xor individual
          (draws.map (fun u => decide (u < rate)))).count true = 0 →
        uniform_mutation individual draws repairPos rate =
          (List.zipWith xor individual
            (draws.map (fun u => decide (u < rate)))).set repairPos
            true)) ∧
      ∀ row ∈ init_population rows poss, 1 ≤ row.count true := by
  have hmutlen : (List.zipWith xor individual
      (draws.map (fun u => decide (u < rate)))).length =
      individual.length := by
    rw [List.length_zipWith, List.length_map, hlen, Nat.min_self]
  refine ⟨⟨?_, ?_, ?_⟩, ?_⟩
  · unfold uniform_mutation
    by_cases hz : (List.zipWith xor individual
        (draws.map (fun u => decide (u < rate)))).count true = 0
    · rw [if_pos hz]
      exact count_true_set_pos _ _ (by rw [hmutlen]; exact hpos)
    · rw [if_neg hz]
      omega
  · intro hz
    unfold uniform_mutation
    rw [if_neg hz]
  · intro hz
    unfold uniform_mutation
    rw [if_pos hz]
  · intro row hrow
    unfold init_population at hrow
    rw [List.mem_iff_getElem] at hrow
    obtain ⟨i, hi, hrow⟩ := hrow
    rw [List.length_zipWith, ← hrp, Nat.min_self] at hi
    rw [List.getElem_zipWith] at hrow
    subst hrow
    have hip : i < poss.length := by omega
    have h1 : rows[i] = rows.getD i [] := by
      rw [List.getD_eq_getElem rows [] hi]
    have h2 : poss[i] = poss.getD i 0 := by
      rw [List.getD_eq_getElem poss 0 hip]
    unfold initRepair
    by_cases hz : (rows[i]).count true = 0
    · rw [if_pos hz]
      refine count_true_set_pos _ _ ?_
      rw [h1, h2]
      exact hposs i hi
    · rw [if_neg hz]
      omega

/-- Witness for C7: mutating `[true, false]` with draws that flip the
first bit produces an all-zero vector that is repaired, and the one-row
initial population `[[false]]` is repaired. -/
theorem mutation_and_init_feasible_witness :
    1 ≤ (uniform_mutation [true, false] [0, 1] 1 (1 / 2)).count true ∧
      ∀ row ∈ init_population [[false]] [0], 1 ≤ row.count true := by
  have h := mutation_and_init_feasible [true, false] [0, 1] 1 (1 / 2)
    (by decide) (by decide) [[false]] [0] (by decide) (by decide)
  exact ⟨h.1.1, h.2⟩

/-! ## Fast non-dominated sort (`nsga_methods/nsga2.py` 35–91)

The pairwise loop `for i. for j > i` increments, for each comparable
pair, the domination count of the dominated member and appends the
dominated index to the dominator's list `S`.  Because `dominates` is
asymmetric (`dominates_asymm`) this computes exactly the closed forms
`domCount` and `domSet` below (with `S[a]` collecting its members in
increasing index order, as the loop does).  The peeling `while` loop is
embedded as fuelled structural recursion; `peel_correct` below shows the
fuel `objs.length + 1` passed by `fast_non_dominated_sort` is enough. -/

/-- Final value of `n[i]`: the number of solutions dominating `i`. -/
def domCount (objs : List (ℚ × ℚ)) (i : ℕ) : ℤ :=
  (((List.range objs.length).filter
    (fun j => dominates (objs.getD j (0, 0)) (objs.getD i (0, 0)))).length
    : ℤ)

/-- Final value of `S[a]`: the indices dominated by `a`, increasing. -/
def domSet (objs : List (ℚ × ℚ)) (a : ℕ) : List ℕ :=
  (List.range objs.length).filter
    (fun b => dominates (objs.getD a (0, 0)) (objs.getD b (0, 0)))

/-- `fronts[0]`: the indices whose final `n[i]` is zero, in increasing
order (the pairwise loop appends `i` as soon as its count is final). -/
def front0 (objs : List (ℚ × ℚ)) : List ℕ :=
  (List.range objs.length).filter (fun i => decide (domCount objs i = 0))

/-- One inner step of the peeling loop (nsga2.py 83–86):
`n[j] -= 1; if n[j] == 0: next_front.append(j)` (the source computes
`n[j]` once; the updated list is written twice here for let-freeness). -/
def decStep (acc : List ℤ × List ℕ) (j : ℕ) : List ℤ × List ℕ :=
  if (acc.1.set j (acc.1.getD j 0 - 1)).getD j 0 = 0 then
    (acc.1.set j (acc.1.getD j 0 - 1), acc.2 ++ [j])
  else (acc.1.set j (acc.1.getD j 0 - 1), acc.2)

/-- Body of one `while` iteration: `for i in fronts[cf]: for j in S[i]`,
starting from counts `n` and an empty `next_front`. -/
def peelFront (S : ℕ → List ℕ) (n : List ℤ) (front : List ℕ) :
    List ℤ × List ℕ :=
  front.foldl (fun acc i => (S i).foldl decStep acc) (n, [])

/-- The peeling `while fronts[current_front]` loop.  Only nonempty fronts
are emitted, matching the source's final `[f for f in fronts if f]`. -/
def fnds_peelAux (S : ℕ → List ℕ) : ℕ → List ℤ → List ℕ → List (List ℕ)
  | 0, _, _ => []
  | fuel + 1, n, front =>
    if front.isEmpty then []
    else
      front :: fnds_peelAux S fuel (peelFront S n front).1
        (peelFront S n front).2

/-- `fast_non_dominated_sort` (nsga2.py 35–91). -/
def fast_non_dominated_sort (objs : List (ℚ × ℚ)) : List (List ℕ) :=
  fnds_peelAux (domSet objs) (objs.length + 1)
    ((List.range objs.length).map (fun i => domCount objs i)) (front0 objs)

/-- Specification-side view: the finite set of dominators of `j`. -/
def Dset (objs : List (ℚ × ℚ)) (j : ℕ) : Finset ℕ :=
  (Finset.range objs.length).filter
    (fun i => dominates (objs.getD i (0, 0)) (objs.getD j (0, 0)) = true)

theorem getD_set_self {α : Type} (l : List α) (i : ℕ) (x d : α)
    (h : i < l.length) : (l.set i x).getD i d = x := by
  rw [List.getD_eq_getElem _ _ (by simpa using h)]
  exact List.getElem_set_self _

theorem getD_set_ne {α : Type} (l : List α) (i q : ℕ) (x d : α)
    (h : q ≠ i) : (l.set i x).getD q d = l.getD q d := by
  by_cases hq : q < l.length
  · rw [List.getD_eq_getElem _ _ (by simpa using hq),
      List.getD_eq_getElem _ _ hq]
    exact List.getElem_set_ne (Ne.symm h) _
  · rw [List.getD_eq_default _ _ (by simpa using Nat.le_of_not_lt hq),
      List.getD_eq_default _ _ (Nat.le_of_not_lt hq)]

/-- Full characterisation of the inner double loop of the peeling phase:
every index `j` ends with its count decremented once per occurrence in
the processed stream `ds`, and `j` is appended to `next_front` exactly
once, precisely when its count passes through zero. -/
theorem foldl_decStep_spec (ds : List ℕ) : ∀ (n0 : List ℤ) (out0 : List ℕ),
    (∀ j ∈ ds, j < n0.length) →
    ((ds.foldl decStep (n0, out0)).1.length = n0.length ∧
      ∀ j, (ds.foldl decStep (n0, out0)).1.getD j 0 =
        n0.getD j 0 - ds.count j) ∧
    ∃ extra, (ds.foldl decStep (n0, out0)).2 = out0 ++ extra ∧
      extra.Nodup ∧
      ∀ j, j ∈ extra ↔
        (1 ≤ n0.getD j 0 ∧ n0.getD j 0 ≤ (ds.count j : ℤ)) := by
  induction ds with
  | nil =>
    intro n0 out0 _
    refine ⟨⟨rfl, fun j => by simp⟩, [], by simp, List.nodup_nil,
      fun j => ?_⟩
    simp only [List.not_mem_nil, List.count_nil, Nat.cast_zero,
      false_iff, not_and, not_le]
    omega
  | cons d rest ih =>
    intro n0 out0 hlt
    have hd : d < n0.length := hlt d (List.mem_cons_self d rest)
    have hn1d : (n0.set d (n0.getD d 0 - 1)).getD d 0 =
        n0.getD d 0 - 1 := getD_set_self _ _ _ _ hd
    have hlt' : ∀ j ∈ rest, j < (n0.set d (n0.getD d 0 - 1)).length := by
      rw [List.length_set]
      exact fun j hj => hlt j (List.mem_cons_of_mem d hj)
    have hcount_d : ((d :: rest).count d : ℤ) = (rest.count d : ℤ) + 1 := by
      rw [List.count_cons]
      simp
    have hcount_ne : ∀ j, j ≠ d →
        ((d :: rest).count j : ℤ) = (rest.count j : ℤ) := by
      intro j hj
      rw [List.count_cons]
      simp [Ne.symm hj]
    by_cases hc : n0.getD d 0 - 1 = 0
    · have hstep : decStep (n0, out0) d =
          (n0.set d (n0.getD d 0 - 1), out0 ++ [d]) := by
        unfold decStep
        rw [hn1d, if_pos hc]
      rw [List.foldl_cons, hstep]
      obtain ⟨⟨hlen, hgetD⟩, extra', hout, hnodup, hmem⟩ :=
        ih (n0.set d (n0.getD d 0 - 1)) (out0 ++ [d]) hlt'
      refine ⟨⟨by rw [hlen, List.length_set], fun j => ?_⟩,
        d :: extra', by rw [hout, List.append_assoc]; rfl, ?_, fun j => ?_⟩
      · by_cases hj : j = d
        · subst hj
          rw [hgetD j, hn1d, hcount_d]
          ring
        · rw [hgetD j, getD_set_ne _ _ _ _ _ hj, hcount_ne j hj]
      · refine List.Nodup.cons (fun hin => ?_) hnodup
        have := (hmem d).mp hin
        rw [hn1d, hc] at this
        omega
      · rw [List.mem_cons, hmem j]
        by_cases hj : j = d
        · subst hj
          rw [hn1d, hcount_d]
          constructor
          · intro _
            omega
          · intro _
            exact Or.inl rfl
        · rw [getD_set_ne _ _ _ _ _ hj, hcount_ne j hj]
          simp [hj]
    · have hstep : decStep (n0, out0) d =
          (n0.set d (n0.getD d 0 - 1), out0) := by
        unfold decStep
        rw [hn1d, if_neg hc]
      rw [List.foldl_cons, hstep]
      obtain ⟨⟨hlen, hgetD⟩, extra', hout, hnodup, hmem⟩ :=
        ih (n0.set d (n0.getD d 0 - 1)) out0 hlt'
      refine ⟨⟨by rw [hlen, List.length_set], fun j => ?_⟩,
        extra', hout, hnodup, fun j => ?_⟩
      · by_cases hj : j = d
        · subst hj
          rw [hgetD j, hn1d, hcount_d]
          ring
        · rw [hgetD j, getD_set_ne _ _ _ _ _ hj, hcount_ne j hj]
      · rw [hmem j]
        by_cases hj : j = d
        · subst hj
          rw [hn1d, hcount_d]
          omega
        · rw [getD_set_ne _ _ _ _ _ hj, hcount_ne j hj]

theorem sdiff_sdiff_eq (s t u : Finset ℕ) : (s \ t) \ u = s \ (t ∪ u) := by
  rw [Finset.sdiff_union_distrib]
  exact Finset.sdiff_sdiff_left' s t u

theorem range_toFinset (n : ℕ) : (List.range n).toFinset = Finset.range n := by
  ext i
  simp

theorem mem_domSet {objs : List (ℚ × ℚ)} {a j : ℕ} :
    j ∈ domSet objs a ↔ (j < objs.length ∧
      dominates (objs.getD a (0, 0)) (objs.getD j (0, 0)) = true) := by
  simp [domSet, List.mem_filter, List.mem_range]

theorem nodup_domSet (objs : List (ℚ × ℚ)) (a : ℕ) :
    (domSet objs a).Nodup :=
  (List.nodup_range _).filter _

theorem domCount_eq_card (objs : List (ℚ × ℚ)) (j : ℕ) :
    domCount objs j = ((Dset objs j).card : ℤ) := by
  unfold domCount Dset
  congr 1
  rw [← List.toFinset_card_of_nodup ((List.nodup_range _).filter _),
    List.toFinset_filter, range_toFinset]

theorem count_eq_ite_mem {l : List ℕ} (h : l.Nodup) (a : ℕ) :
    l.count a = if a ∈ l then 1 else 0 := by
  by_cases hm : a ∈ l
  · rw [if_pos hm]
    exact List.count_eq_one_of_mem h hm
  · rw [if_neg hm]
    exact List.count_eq_zero.mpr hm

theorem count_flatMap_domSet (objs : List (ℚ × ℚ)) :
    ∀ (front : List ℕ), front.Nodup → (∀ i ∈ front, i < objs.length) →
    ∀ j, j < objs.length →
    (front.flatMap (domSet objs)).count j =
      (Dset objs j ∩ front.toFinset).card := by
  intro front
  induction front with
  | nil => intro _ _ j _; simp
  | cons a front ih =>
    intro hnd hlt j hj
    have ha : a < objs.length := hlt a (List.mem_cons_self a front)
    have haf : a ∉ front := (List.nodup_cons.mp hnd).1
    have hrec := ih (List.nodup_cons.mp hnd).2
      (fun i hi => hlt i (List.mem_cons_of_mem a hi)) j hj
    rw [List.flatMap_cons, List.count_append, hrec,
      count_eq_ite_mem (nodup_domSet objs a) j]
    have htf : (a :: front).toFinset = insert a front.toFinset := by
      simp
    rw [htf]
    by_cases hdom :
        dominates (objs.getD a (0, 0)) (objs.getD j (0, 0)) = true
    · rw [if_pos (mem_domSet.mpr ⟨hj, hdom⟩)]
      have haD : a ∈ Dset objs j := by
        unfold Dset
        rw [Finset.mem_filter, Finset.mem_range]
        exact ⟨ha, hdom⟩
      have hins : Dset objs j ∩ insert a front.toFinset =
          insert a (Dset objs j ∩ front.toFinset) := by
        ext i
        simp only [Finset.mem_inter, Finset.mem_insert]
        constructor
        · rintro ⟨hiD, hia | hif⟩
          · exact Or.inl hia
          · exact Or.inr ⟨hiD, hif⟩
        · rintro (rfl | ⟨hiD, hif⟩)
          · exact ⟨haD, Or.inl rfl⟩
          · exact ⟨hiD, Or.inr hif⟩
      rw [hins, Finset.card_insert_of_not_mem (fun hmem => by
        exact haf (List.mem_toFinset.mp (Finset.mem_inter.mp hmem).2))]
      omega
    · rw [if_neg (fun hmem => hdom (mem_domSet.mp hmem).2)]
      have hins : Dset objs j ∩ insert a front.toFinset =
          Dset objs j ∩ front.toFinset := by
        ext i
        simp only [Finset.mem_inter, Finset.mem_insert]
        constructor
        · rintro ⟨hiD, hia | hif⟩
          · subst hia
            exact absurd ((Finset.mem_filter.mp hiD).2) hdom
          · exact ⟨hiD, hif⟩
        · rintro ⟨hiD, hif⟩
          exact ⟨hiD, Or.inr hif⟩
      rw [hins]
      omega

/-- Invariant of the peeling loop: `C` is the set of indices already
collected into emitted fronts, `n` the current counts and `front` the
front about to be processed. -/
def PeelInv (objs : List (ℚ × ℚ)) (C : Finset ℕ) (n : List ℤ)
    (front : List ℕ) : Prop :=
  n.length = objs.length ∧
  front.Nodup ∧
  (∀ j ∈ front, j < objs.length ∧ j ∉ C) ∧
  (∀ j ∈ C, j < objs.length) ∧
  (∀ j ∈ C, Dset objs j ⊆ C) ∧
  (∀ j, j < objs.length → n.getD j 0 = ((Dset objs j \ C).card : ℤ)) ∧
  (∀ j, j < objs.length → j ∉ C → (j ∈ front ↔ Dset objs j ⊆ C))

theorem foldl_nested (S : ℕ → List ℕ) (front : List ℕ) :
    ∀ (init : List ℤ × List ℕ),
    front.foldl (fun acc i => (S i).foldl decStep acc) init =
      (front.flatMap S).foldl decStep init := by
  induction front with
  | nil => intro init; simp
  | cons a front ih =>
    intro init
    rw [List.foldl_cons, List.flatMap_cons, List.foldl_append, ih]

theorem peelFront_eq_flatMap (S : ℕ → List ℕ) (n : List ℤ)
    (front : List ℕ) :
    peelFront S n front = (front.flatMap S).foldl decStep (n, []) := by
  unfold peelFront
  rw [foldl_nested]

/-- One peeling iteration preserves the invariant with the processed
front added to the collected set, and the produced `next_front` consists
exactly of the uncollected indices whose dominators are now all
collected. -/
theorem peelFront_step (objs : List (ℚ × ℚ)) (C : Finset ℕ) (n : List ℤ)
    (front : List ℕ) (hInv : PeelInv objs C n front) :
    PeelInv objs (C ∪ front.toFinset)
      (peelFront (domSet objs) n front).1
      (peelFront (domSet objs) n front).2 ∧
    (∀ j, j ∈ (peelFront (domSet objs) n front).2 ↔
      (j < objs.length ∧ j ∉ C ∪ front.toFinset ∧
        Dset objs j ⊆ C ∪ front.toFinset)) := by
  obtain ⟨h1, h2, h3, h4, h5, h6, h7⟩ := hInv
  have hds : ∀ j ∈ front.flatMap (domSet objs), j < n.length := by
    intro j hj
    rw [h1]
    rw [List.mem_flatMap] at hj
    obtain ⟨i, _, hji⟩ := hj
    exact (mem_domSet.mp hji).1
  have hspec := foldl_decStep_spec (front.flatMap (domSet objs)) n [] hds
  rw [← peelFront_eq_flatMap (domSet objs) n front] at hspec
  obtain ⟨⟨hlen, hgetD⟩, extra, hout, hnodup, hmem⟩ := hspec
  rw [List.nil_append] at hout
  have hcnt : ∀ j, j < objs.length →
      ((front.flatMap (domSet objs)).count j : ℤ) =
        ((Dset objs j ∩ front.toFinset).card : ℤ) := by
    intro j hj
    exact_mod_cast congrArg Nat.cast
      (count_flatMap_domSet objs front h2 (fun i hi => (h3 i hi).1) j hj)
  have hintsub : ∀ j, Dset objs j ∩ front.toFinset =
      (Dset objs j \ C) ∩ front.toFinset := by
    intro j
    ext i
    simp only [Finset.mem_inter, Finset.mem_sdiff]
    constructor
    · rintro ⟨hiD, hif⟩
      exact ⟨⟨hiD, (h3 i (List.mem_toFinset.mp hif)).2⟩, hif⟩
    · rintro ⟨⟨hiD, _⟩, hif⟩
      exact ⟨hiD, hif⟩
  have hcard : ∀ j, ((Dset objs j \ C).card : ℤ) -
      ((Dset objs j ∩ front.toFinset).card : ℤ) =
      ((Dset objs j \ (C ∪ front.toFinset)).card : ℤ) := by
    intro j
    rw [hintsub j]
    have hpart := Finset.card_inter_add_card_sdiff (Dset objs j \ C)
      front.toFinset
    have heq : (Dset objs j \ C) \ front.toFinset =
        Dset objs j \ (C ∪ front.toFinset) := sdiff_sdiff_eq _ _ _
    rw [← heq]
    omega
  have hchar : ∀ j, j ∈ (peelFront (domSet objs) n front).2 ↔
      (j < objs.length ∧ j ∉ C ∪ front.toFinset ∧
        Dset objs j ⊆ C ∪ front.toFinset) := by
    intro j
    rw [hout, hmem j]
    constructor
    · rintro ⟨hge1, hle⟩
      have hjN : j < objs.length := by
        by_contra hN
        rw [List.getD_eq_default _ _ (by omega : n.length ≤ j)] at hge1
        omega
      rw [h6 j hjN] at hge1 hle
      rw [hcnt j hjN] at hle
      have hle2 : ((Dset objs j \ C) ∩ front.toFinset).card ≤
          (Dset objs j \ C).card :=
        Finset.card_le_card Finset.inter_subset_left
      have hz : (Dset objs j \ (C ∪ front.toFinset)).card = 0 := by
        have hc := hcard j
        rw [hintsub j] at hle hc
        omega
      have hsub : Dset objs j ⊆ C ∪ front.toFinset := by
        rw [Finset.card_eq_zero] at hz
        intro i hi
        by_contra hC'
        have hmem2 : i ∈ Dset objs j \ (C ∪ front.toFinset) :=
          Finset.mem_sdiff.mpr ⟨hi, hC'⟩
        rw [hz] at hmem2
        exact absurd hmem2 (Finset.not_mem_empty i)
      refine ⟨hjN, ?_, hsub⟩
      intro hjC'
      rcases Finset.mem_union.mp hjC' with hjC | hjF
      · have hzero : Dset objs j \ C = ∅ :=
          Finset.sdiff_eq_empty_iff_subset.mpr (h5 j hjC)
        rw [hzero] at hge1
        simp at hge1
      · have hjf : j ∈ front := List.mem_toFinset.mp hjF
        have hzero : Dset objs j \ C = ∅ :=
          Finset.sdiff_eq_empty_iff_subset.mpr
            ((h7 j hjN (h3 j hjf).2).mp hjf)
        rw [hzero] at hge1
        simp at hge1
    · rintro ⟨hjN, hjC', hsub⟩
      have hjC : j ∉ C := fun h => hjC' (Finset.mem_union_left _ h)
      have hjF : j ∉ front := fun h =>
        hjC' (Finset.mem_union_right _ (List.mem_toFinset.mpr h))
      have hnsub : ¬Dset objs j ⊆ C := fun h =>
        hjF ((h7 j hjN hjC).mpr h)
      have hge1 : 1 ≤ (Dset objs j \ C).card := by
        have hne : (Dset objs j \ C).Nonempty :=
          Finset.sdiff_nonempty.mpr hnsub
        have := Finset.card_pos.mpr hne
        omega
      rw [h6 j hjN, hcnt j hjN]
      refine ⟨by exact_mod_cast hge1, ?_⟩
      have hsub2 : Dset objs j \ C ⊆ Dset objs j ∩ front.toFinset := by
        intro i hi
        rw [Finset.mem_sdiff] at hi
        rcases Finset.mem_union.mp (hsub hi.1) with hiC | hiF
        · exact absurd hiC hi.2
        · exact Finset.mem_inter.mpr ⟨hi.1, hiF⟩
      exact_mod_cast Finset.card_le_card hsub2
  refine ⟨⟨hlen.trans h1, hout ▸ hnodup, ?_, ?_, ?_, ?_, ?_⟩, hchar⟩
  · intro j hj
    obtain ⟨hjN, hjC', _⟩ := (hchar j).mp hj
    exact ⟨hjN, hjC'⟩
  · intro j hj
    rcases Finset.mem_union.mp hj with hjC | hjF
    · exact h4 j hjC
    · exact (h3 j (List.mem_toFinset.mp hjF)).1
  · intro j hj
    rcases Finset.mem_union.mp hj with hjC | hjF
    · exact (h5 j hjC).trans Finset.subset_union_left
    · have hjf : j ∈ front := List.mem_toFinset.mp hjF
      exact ((h7 j (h3 j hjf).1 (h3 j hjf).2).mp hjf).trans
        Finset.subset_union_left
  · intro j hjN
    rw [hgetD j, h6 j hjN, hcnt j hjN, hcard j]
  · intro j hjN hjC'
    rw [hchar j]
    constructor
    · rintro ⟨_, _, hsub⟩
      exact hsub
    · intro hsub
      exact ⟨hjN, hjC', hsub⟩

/-- In every nonempty finite index set there is a member dominated by no
member of the set (`dominates` is irreflexive and transitive). -/
theorem exists_undominated (objs : List (ℚ × ℚ)) :
    ∀ (m : ℕ) (U : Finset ℕ), U.card ≤ m → U.Nonempty →
    ∃ j ∈ U, ∀ i ∈ U,
      dominates (objs.getD i (0, 0)) (objs.getD j (0, 0)) = false := by
  intro m
  induction m with
  | zero =>
    intro U hcard hne
    have := Finset.card_pos.mpr hne
    omega
  | succ m ih =>
    intro U hcard hne
    obtain ⟨j, hj⟩ := hne
    by_cases hmin : ∀ i ∈ U,
        dominates (objs.getD i (0, 0)) (objs.getD j (0, 0)) = false
    · exact ⟨j, hj, hmin⟩
    · push_neg at hmin
      obtain ⟨i, hiU, hidom⟩ := hmin
      have hidom' :
          dominates (objs.getD i (0, 0)) (objs.getD j (0, 0)) = true := by
        revert hidom
        cases dominates (objs.getD i (0, 0)) (objs.getD j (0, 0)) <;> simp
      have hVsub : U.filter (fun x =>
          dominates (objs.getD x (0, 0)) (objs.getD j (0, 0)) = true) ⊆
          U := Finset.filter_subset _ _
      have hiV : i ∈ U.filter (fun x =>
          dominates (objs.getD x (0, 0)) (objs.getD j (0, 0)) = true) :=
        Finset.mem_filter.mpr ⟨hiU, hidom'⟩
      have hjV : j ∉ U.filter (fun x =>
          dominates (objs.getD x (0, 0)) (objs.getD j (0, 0)) = true) := by
        intro hjV
        have hirr := (Finset.mem_filter.mp hjV).2
        rw [dominates_irrefl] at hirr
        exact absurd hirr (by simp)
      have hVcard : (U.filter (fun x =>
          dominates (objs.getD x (0, 0)) (objs.getD j (0, 0)) = true)).card
          ≤ m := by
        have hss := (Finset.ssubset_iff_of_subset hVsub).mpr ⟨j, hj, hjV⟩
        have := Finset.card_lt_card hss
        omega
      obtain ⟨j', hj'V, hmin'⟩ := ih _ hVcard ⟨i, hiV⟩
      refine ⟨j', hVsub hj'V, fun x hxU => ?_⟩
      rcases Bool.eq_false_or_eq_true
          (dominates (objs.getD x (0, 0)) (objs.getD j' (0, 0))) with
        hx | hx
      · exfalso
        have hj'j := (Finset.mem_filter.mp hj'V).2
        have hxj := dominates_trans hx hj'j
        have hxV : x ∈ U.filter (fun y =>
            dominates (objs.getD y (0, 0)) (objs.getD j (0, 0)) = true) :=
          Finset.mem_filter.mpr ⟨hxU, hxj⟩
        have := hmin' x hxV
        rw [this] at hx
        exact absurd hx (by simp)
      · exact hx

/-- If some index below `objs.length` lies outside `W`, one of them has
all its dominators inside `W`. -/
theorem exists_fully_collected (objs : List (ℚ × ℚ)) (W : Finset ℕ)
    (hW : (Finset.range objs.length \ W).Nonempty) :
    ∃ j, j < objs.length ∧ j ∉ W ∧ Dset objs j ⊆ W := by
  obtain ⟨j', hj'U, hmin⟩ := exists_undominated objs _ _ le_rfl hW
  have hj'N := Finset.mem_range.mp (Finset.mem_sdiff.mp hj'U).1
  have hj'W := (Finset.mem_sdiff.mp hj'U).2
  refine ⟨j', hj'N, hj'W, ?_⟩
  intro i hi
  have hiN : i < objs.length :=
    Finset.mem_range.mp (Finset.mem_filter.mp hi).1
  have hidom := (Finset.mem_filter.mp hi).2
  by_contra hiW
  have hiU : i ∈ Finset.range objs.length \ W :=
    Finset.mem_sdiff.mpr ⟨Finset.mem_range.mpr hiN, hiW⟩
  have hfalse := hmin i hiU
  rw [hfalse] at hidom
  exact absurd hidom (by simp)

/-- The peeling loop started in an invariant state with enough fuel
collects exactly the uncollected indices, without duplicates, into
nonempty fronts. -/
theorem peel_correct (objs : List (ℚ × ℚ)) : ∀ (fuel : ℕ) (C : Finset ℕ)
    (n : List ℤ) (front : List ℕ), PeelInv objs C n front →
    objs.length + 1 ≤ fuel + C.card →
    (∀ j, j ∈ (fnds_peelAux (domSet objs) fuel n front).flatten ↔
        (j < objs.length ∧ j ∉ C)) ∧
      (fnds_peelAux (domSet objs) fuel n front).flatten.Nodup ∧
      (∀ f ∈ fnds_peelAux (domSet objs) fuel n front, f ≠ []) := by
  intro fuel
  induction fuel with
  | zero =>
    intro C n front hInv hfuel
    exfalso
    have hsub : C ⊆ Finset.range objs.length := fun j hj =>
      Finset.mem_range.mpr (hInv.2.2.2.1 j hj)
    have := Finset.card_le_card hsub
    rw [Finset.card_range] at this
    omega
  | succ fuel ih =>
    intro C n front hInv hfuel
    by_cases hfe : front.isEmpty = true
    · have hfront : front = [] := List.isEmpty_iff.mp hfe
      subst hfront
      have hred : fnds_peelAux (domSet objs) (fuel + 1) n [] = [] := by
        unfold fnds_peelAux
        rfl
      rw [hred]
      refine ⟨fun j => ?_, by simp, fun f hf => absurd hf
        (List.not_mem_nil f)⟩
      rw [List.flatten_nil]
      constructor
      · intro h
        exact absurd h (List.not_mem_nil j)
      · rintro ⟨hjN, hjC⟩
        exfalso
        obtain ⟨j', hj'N, hj'C, hsub⟩ := exists_fully_collected objs C
          ⟨j, Finset.mem_sdiff.mpr ⟨Finset.mem_range.mpr hjN, hjC⟩⟩
        exact absurd ((hInv.2.2.2.2.2.2 j' hj'N hj'C).mpr hsub)
          (List.not_mem_nil j')
    · have hfront : front ≠ [] := fun h => hfe (by rw [h]; rfl)
      obtain ⟨hInv', hchar⟩ := peelFront_step objs C n front hInv
      have hdisj : Disjoint C front.toFinset := by
        rw [Finset.disjoint_right]
        intro a haF
        exact (hInv.2.2.1 a (List.mem_toFinset.mp haF)).2
      have hFtcard : front.toFinset.card = front.length :=
        List.toFinset_card_of_nodup hInv.2.1
      have hcardU : (C ∪ front.toFinset).card = C.card + front.length := by
        rw [Finset.card_union_of_disjoint hdisj, hFtcard]
      have hflen : 1 ≤ front.length := by
        cases front with
        | nil => exact absurd rfl hfront
        | cons a l => simp
      have hsub' : C ∪ front.toFinset ⊆ Finset.range objs.length :=
        fun j hj => Finset.mem_range.mpr (hInv'.2.2.2.1 j hj)
      have hcardle : (C ∪ front.toFinset).card ≤ objs.length := by
        have := Finset.card_le_card hsub'
        rwa [Finset.card_range] at this
      have hfuel' : objs.length + 1 ≤
          fuel + (C ∪ front.toFinset).card := by
        omega
      obtain ⟨hmem', hnodup', hne'⟩ :=
        ih (C ∪ front.toFinset) _ _ hInv' hfuel'
      have hstep : fnds_peelAux (domSet objs) (fuel + 1) n front =
          if front.isEmpty = true then []
          else front :: fnds_peelAux (domSet objs) fuel
            (peelFront (domSet objs) n front).1
            (peelFront (domSet objs) n front).2 := rfl
      rw [hstep, if_neg hfe, List.flatten_cons]
      refine ⟨fun j => ?_, ?_, ?_⟩
      · rw [List.mem_append, hmem' j]
        constructor
        · rintro (hjf | ⟨hjN, hjC'⟩)
          · exact ⟨(hInv.2.2.1 j hjf).1, (hInv.2.2.1 j hjf).2⟩
          · exact ⟨hjN, fun hC => hjC' (Finset.mem_union_left _ hC)⟩
        · rintro ⟨hjN, hjC⟩
          by_cases hjf : j ∈ front
          · exact Or.inl hjf
          · refine Or.inr ⟨hjN, ?_⟩
            intro hj'
            rcases Finset.mem_union.mp hj' with h | h
            · exact hjC h
            · exact hjf (List.mem_toFinset.mp h)
      · rw [List.nodup_append]
        refine ⟨hInv.2.1, hnodup', fun a haf harest => ?_⟩
        obtain ⟨_, haC'⟩ := (hmem' a).mp harest
        exact haC' (Finset.mem_union_right _ (List.mem_toFinset.mpr haf))
      · intro f hf
        rcases List.mem_cons.mp hf with rfl | hf'
        · exact hfront
        · exact hne' f hf'

/-- The state `fast_non_dominated_sort` hands to the peeling loop
satisfies the invariant with nothing collected yet. -/
theorem init_PeelInv (objs : List (ℚ × ℚ)) :
    PeelInv objs ∅
      ((List.range objs.length).map (fun i => domCount objs i))
      (front0 objs) := by
  refine ⟨by simp, (List.nodup_range _).filter _, ?_, ?_, ?_, ?_, ?_⟩
  · intro j hj
    exact ⟨List.mem_range.mp (List.mem_of_mem_filter hj),
      Finset.not_mem_empty j⟩
  · intro j hj
    exact absurd hj (Finset.not_mem_empty j)
  · intro j hj
    exact absurd hj (Finset.not_mem_empty j)
  · intro j hjN
    have hg : ((List.range objs.length).map
        (fun i => domCount objs i)).getD j 0 = domCount objs j := by
      rw [List.getD_eq_getElem _ _ (by simpa using hjN),
        List.getElem_map, List.getElem_range]
    rw [hg, Finset.sdiff_empty, domCount_eq_card]
  · intro j hjN _
    unfold front0
    rw [List.mem_filter, Finset.subset_empty]
    constructor
    · rintro ⟨_, hd⟩
      rw [decide_eq_true_eq, domCount_eq_card] at hd
      have hcz : (Dset objs j).card = 0 := by exact_mod_cast hd
      exact Finset.card_eq_zero.mp hcz
    · intro hD
      refine ⟨List.mem_range.mpr hjN, ?_⟩
      rw [decide_eq_true_eq, domCount_eq_card, hD]
      simp

/-- C4.  Fast non-dominated sort partitions the input indices: the
concatenation of all fronts contains exactly the indices `0, …, N-1`
with no duplicate or omission, and front 0 is exactly the set of
solutions dominated by no solution in the input. -/
theorem fast_non_dominated_sort_partition (objs : List (ℚ × ℚ)) :
    (∀ j, j ∈ (fast_non_dominated_sort objs).flatten ↔
        j < objs.length) ∧
      (fast_non_dominated_sort objs).flatten.Nodup ∧
      ∀ i, i ∈ (fast_non_dominated_sort objs).getD 0 [] ↔
        (i < objs.length ∧ ∀ j, j < objs.length →
          dominates (objs.getD j (0, 0)) (objs.getD i (0, 0)) = false) := by
  have hmain := peel_correct objs (objs.length + 1) ∅ _ _
    (init_PeelInv objs) (by simp)
  refine ⟨fun j => ?_, hmain.2.1, fun i => ?_⟩
  · unfold fast_non_dominated_sort
    rw [hmain.1 j]
    simp
  · have hhead : (fast_non_dominated_sort objs).getD 0 [] =
        front0 objs := by
      unfold fast_non_dominated_sort fnds_peelAux
      by_cases hfe : (front0 objs).isEmpty = true
      · rw [if_pos hfe, List.isEmpty_iff.mp hfe]
        rfl
      · rw [if_neg hfe]
        rfl
    rw [hhead]
    unfold front0
    rw [List.mem_filter, List.mem_range, decide_eq_true_eq,
      domCount_eq_card]
    constructor
    · rintro ⟨hiN, hcard⟩
      have hD : Dset objs i = ∅ :=
        Finset.card_eq_zero.mp (by exact_mod_cast hcard)
      refine ⟨hiN, fun j hjN => ?_⟩
      rcases Bool.eq_false_or_eq_true
          (dominates (objs.getD j (0, 0)) (objs.getD i (0, 0))) with
        ht | hf
      · exfalso
        have : j ∈ Dset objs i :=
          Finset.mem_filter.mpr ⟨Finset.mem_range.mpr hjN, ht⟩
        rw [hD] at this
        exact absurd this (Finset.not_mem_empty j)
      · exact hf
    · rintro ⟨hiN, hall⟩
      refine ⟨hiN, ?_⟩
      have hD : Dset objs i = ∅ := by
        rw [Finset.eq_empty_iff_forall_not_mem]
        intro j hj
        have hjN := Finset.mem_range.mp (Finset.mem_filter.mp hj).1
        have hdom := (Finset.mem_filter.mp hj).2
        rw [hall j hjN] at hdom
        exact absurd hdom (by simp)
      rw [hD]
      simp

/-! ## Crowding distance and environmental selection (nsga2.py 96–181)

`np.inf` is modelled as `⊤` in `WithTop ℚ` (absorbing for `+`, maximal
for `≤`, exactly like the float infinity the source relies on).
`np.argsort` leaves the order of ties unspecified; the embedding fixes
the stable insertion-sort order, which the claims do not depend on. -/

/-- `np.argsort(vals)`: positions sorted by ascending value. -/
def argsortAsc (vals : List ℚ) : List ℕ :=
  List.insertionSort (fun i j => vals.getD i 0 ≤ vals.getD j 0)
    (List.range vals.length)

/-- One objective pass of `crowding_distance` (nsga2.py 124–140):
boundary members of the sorted order get infinite distance; if the
objective range is zero the pass stops there; otherwise each interior
member accumulates its normalised neighbour gap. -/
def crowdPass (vals : List ℚ) (dist : List (WithTop ℚ)) :
    List (WithTop ℚ) :=
  if ((argsortAsc vals).map (fun i => vals.getD i 0)).getD
        (vals.length - 1) 0 -
      ((argsortAsc vals).map (fun i => vals.getD i 0)).getD 0 0 = 0 then
    ((dist.set ((argsortAsc vals).getD 0 0) ⊤).set
      ((argsortAsc vals).getD (vals.length - 1) 0) ⊤)
  else
    (List.range (vals.length - 2)).foldl (fun d i =>
      d.set ((argsortAsc vals).getD (i + 1) 0)
        (d.getD ((argsortAsc vals).getD (i + 1) 0) ⊤ +
          (((((argsortAsc vals).map (fun i => vals.getD i 0)).getD (i + 2) 0 -
              ((argsortAsc vals).map (fun i => vals.getD i 0)).getD i 0) /
            (((argsortAsc vals).map (fun i => vals.getD i 0)).getD
                (vals.length - 1) 0 -
              ((argsortAsc vals).map (fun i => vals.getD i 0)).getD 0 0) :
            ℚ) : WithTop ℚ)))
      ((dist.set ((argsortAsc vals).getD 0 0) ⊤).set
        ((argsortAsc vals).getD (vals.length - 1) 0) ⊤)

/-- `crowding_distance(objectives, front)` (nsga2.py 96–142): fronts of
size ≤ 2 get all-infinite distances; otherwise a zero vector accumulates
one pass per objective (`M = 2`). -/
def crowding_distance (objs : List (ℚ × ℚ)) (front : List ℕ) :
    List (WithTop ℚ) :=
  if front.length ≤ 2 then List.replicate front.length ⊤
  else
    crowdPass ((front.map (fun i => objs.getD i (0, 0))).map Prod.snd)
      (crowdPass ((front.map (fun i => objs.getD i (0, 0))).map Prod.fst)
        (List.replicate front.length 0))

/-- `np.argsort(-dist)`: positions sorted by descending distance. -/
def argsortDesc (dist : List (WithTop ℚ)) : List ℕ :=
  List.insertionSort (fun i j => dist.getD j ⊤ ≤ dist.getD i ⊤)
    (List.range dist.length)

/-- The `for front in fronts` loop of `environmental_selection`
(nsga2.py 165–179): a whole front that fits is appended; the first front
that does not fit is truncated to the `N - len(selected)` members of
highest crowding distance, and the loop breaks. -/
def selectLoop (objs : List (ℚ × ℚ)) (Nt : ℕ) :
    List (List ℕ) → List ℕ → List ℕ
  | [], selected => selected
  | front :: rest, selected =>
    if selected.length + front.length ≤ Nt then
      selectLoop objs Nt rest (selected ++ front)
    else
      selected ++ ((argsortDesc (crowding_distance objs front)).take
        (Nt - selected.length)).map (fun i => front.getD i 0)

/-- `environmental_selection(objectives, N)` (nsga2.py 147–181). -/
def environmental_selection (objs : List (ℚ × ℚ)) (Nt : ℕ) : List ℕ :=
  selectLoop objs Nt (fast_non_dominated_sort objs) []

theorem length_foldl_set {α ι : Type} (l : List ι) (pos : ι → ℕ)
    (val : List α → ι → α) :
    ∀ d : List α,
      (l.foldl (fun d i => d.set (pos i) (val d i)) d).length =
        d.length := by
  induction l with
  | nil => intro d; rfl
  | cons a l ih =>
    intro d
    rw [List.foldl_cons, ih, List.length_set]

theorem crowdPass_length (vals : List ℚ) (dist : List (WithTop ℚ)) :
    (crowdPass vals dist).length = dist.length := by
  unfold crowdPass
  by_cases hr : ((argsortAsc vals).map (fun i => vals.getD i 0)).getD
        (vals.length - 1) 0 -
      ((argsortAsc vals).map (fun i => vals.getD i 0)).getD 0 0 = 0
  · rw [if_pos hr, List.length_set, List.length_set]
  · rw [if_neg hr,
      length_foldl_set (List.range (vals.length - 2))
        (fun i => (argsortAsc vals).getD (i + 1) 0),
      List.length_set, List.length_set]

theorem crowding_distance_length (objs : List (ℚ × ℚ))
    (front : List ℕ) :
    (crowding_distance objs front).length = front.length := by
  unfold crowding_distance
  by_cases h : front.length ≤ 2
  · rw [if_pos h, List.length_replicate]
  · rw [if_neg h, crowdPass_length, crowdPass_length,
      List.length_replicate]

theorem argsortDesc_perm (dist : List (WithTop ℚ)) :
    (argsortDesc dist).Perm (List.range dist.length) :=
  List.perm_insertionSort _ _

theorem argsortDesc_nodup (dist : List (WithTop ℚ)) :
    (argsortDesc dist).Nodup :=
  (argsortDesc_perm dist).nodup_iff.mpr (List.nodup_range _)

theorem mem_argsortDesc (dist : List (WithTop ℚ)) (i : ℕ) :
    i ∈ argsortDesc dist ↔ i < dist.length := by
  rw [(argsortDesc_perm dist).mem_iff, List.mem_range]

theorem argsortDesc_length (dist : List (WithTop ℚ)) :
    (argsortDesc dist).length = dist.length := by
  rw [(argsortDesc_perm dist).length_eq, List.length_range]

theorem argsortDesc_sorted (dist : List (WithTop ℚ)) :
    List.Sorted (fun i j => dist.getD j ⊤ ≤ dist.getD i ⊤)
      (argsortDesc dist) := by
  haveI htot : IsTotal ℕ (fun i j => dist.getD j ⊤ ≤ dist.getD i ⊤) :=
    ⟨fun a b => le_total _ _⟩
  haveI htrans : IsTrans ℕ (fun i j => dist.getD j ⊤ ≤ dist.getD i ⊤) :=
    ⟨fun _ _ _ hab hbc => le_trans hbc hab⟩
  exact List.sorted_insertionSort _ _

/-- Every member of the taken prefix of the descending argsort has a
distance at least as large as every member of the dropped suffix. -/
theorem take_sorted_ge (dist : List (WithTop ℚ)) (m a b : ℕ)
    (ha : a ∈ (argsortDesc dist).take m)
    (hb : b ∈ (argsortDesc dist).drop m) :
    dist.getD b ⊤ ≤ dist.getD a ⊤ := by
  have hs := argsortDesc_sorted dist
  rw [← List.take_append_drop m (argsortDesc dist)] at hs
  exact (List.pairwise_append.mp hs).2.2 a ha b hb

theorem nodup_map_getD (idxs front : List ℕ) (hn : front.Nodup)
    (hidx : idxs.Nodup) (hlt : ∀ i ∈ idxs, i < front.length) :
    (idxs.map (fun i => front.getD i 0)).Nodup := by
  refine List.Nodup.map_on ?_ hidx
  intro x hx y hy hxy
  have hxl := hlt x hx
  have hyl := hlt y hy
  rw [List.getD_eq_getElem _ _ hxl, List.getD_eq_getElem _ _ hyl] at hxy
  exact (List.Nodup.getElem_inj_iff hn).mp hxy

/-- Full characterisation of the environmental-selection accumulation
loop, by induction over the front list. -/
theorem selectLoop_spec (objs : List (ℚ × ℚ)) (Nt : ℕ)
    (fronts : List (List ℕ)) :
    ∀ (selected : List ℕ),
    (selected ++ fronts.flatten).Nodup →
    selected.length ≤ Nt →
    Nt ≤ selected.length + fronts.flatten.length →
    (selectLoop objs Nt fronts selected).length = Nt ∧
    (selectLoop objs Nt fronts selected).Nodup ∧
    (∃ pre, selectLoop objs Nt fronts selected = selected ++ pre) ∧
    (∀ k, ∀ i ∈ fronts.getD k [],
      selected.length + ((fronts.take (k + 1)).flatten).length ≤ Nt →
      i ∈ selectLoop objs Nt fronts selected) ∧
    (∀ k, selected.length + ((fronts.take k).flatten).length ≤ Nt →
      Nt < selected.length + ((fronts.take (k + 1)).flatten).length →
      (((selectLoop objs Nt fronts selected).filter
          (fun i => (fronts.getD k []).contains i)).length +
        (selected.length + ((fronts.take k).flatten).length) = Nt) ∧
      (∀ a b, a < (fronts.getD k []).length →
        b < (fronts.getD k []).length →
        (fronts.getD k []).getD a 0 ∈ selectLoop objs Nt fronts selected →
        (fronts.getD k []).getD b 0 ∉ selectLoop objs Nt fronts selected →
        (crowding_distance objs (fronts.getD k [])).getD b ⊤ ≤
          (crowding_distance objs (fronts.getD k [])).getD a ⊤)) := by
  induction fronts with
  | nil =>
    intro selected hnd hle hge
    rw [List.flatten_nil, List.length_nil, Nat.add_zero] at hge
    rw [List.flatten_nil, List.append_nil] at hnd
    refine ⟨le_antisymm hle hge, hnd,
      ⟨[], (List.append_nil selected).symm⟩, ?_, ?_⟩
    · intro k i hi _
      rw [List.getD_nil] at hi
      exact absurd hi (List.not_mem_nil i)
    · intro k _ hyp2
      exfalso
      rw [List.take_nil, List.flatten_nil, List.length_nil] at hyp2
      omega
  | cons front rest ih =>
    intro selected hnd hle hge
    rw [List.flatten_cons] at hnd hge
    rw [List.length_append] at hge
    by_cases hfit : selected.length + front.length ≤ Nt
    · have hred : selectLoop objs Nt (front :: rest) selected =
          selectLoop objs Nt rest (selected ++ front) := by
        show (if selected.length + front.length ≤ Nt then
          selectLoop objs Nt rest (selected ++ front) else _) = _
        rw [if_pos hfit]
      rw [hred]
      have hnd' : ((selected ++ front) ++ rest.flatten).Nodup := by
        rwa [List.append_assoc]
      have hlen2 : (selected ++ front).length =
          selected.length + front.length := List.length_append _ _
      obtain ⟨hlenr, hnodupr, ⟨pre, hpre⟩, hcr, hdr⟩ :=
        ih (selected ++ front) hnd' (by omega) (by omega)
      refine ⟨hlenr, hnodupr,
        ⟨front ++ pre, by rw [hpre, List.append_assoc]⟩, ?_, ?_⟩
      · intro k i hi hyp
        match k with
        | 0 =>
          rw [List.getD_cons_zero] at hi
          rw [hpre]
          exact List.mem_append_left _ (List.mem_append_right _ hi)
        | k' + 1 =>
          rw [List.getD_cons_succ] at hi
          rw [List.take_succ_cons, List.flatten_cons,
            List.length_append] at hyp
          exact hcr k' i hi (by omega)
      · intro k hyp1 hyp2
        match k with
        | 0 =>
          exfalso
          rw [List.take_succ_cons, List.take_zero, List.flatten_cons,
            List.flatten_nil, List.append_nil] at hyp2
          omega
        | k' + 1 =>
          rw [List.getD_cons_succ]
          rw [List.take_succ_cons, List.flatten_cons,
            List.length_append] at hyp1 hyp2
          rw [List.take_succ_cons, List.flatten_cons, List.length_append]
          have hres := hdr k' (by omega) (by omega)
          refine ⟨?_, hres.2⟩
          have h1 := hres.1
          omega
    · have hred : selectLoop objs Nt (front :: rest) selected =
          selected ++ ((argsortDesc (crowding_distance objs front)).take
            (Nt - selected.length)).map (fun i => front.getD i 0) := by
        show (if selected.length + front.length ≤ Nt then _ else
          selected ++ ((argsortDesc (crowding_distance objs front)).take
            (Nt - selected.length)).map (fun i => front.getD i 0)) = _
        rw [if_neg hfit]
      rw [hred]
      obtain ⟨hselnd, hfl, hdisj⟩ := List.nodup_append.mp hnd
      obtain ⟨hfrontnd, _, _⟩ := List.nodup_append.mp hfl
      have horderlen : (argsortDesc (crowding_distance objs front)).length
          = front.length := by
        rw [argsortDesc_length, crowding_distance_length]
      have htake_lt : ∀ i ∈ (argsortDesc
          (crowding_distance objs front)).take (Nt - selected.length),
          i < front.length := by
        intro i hi
        have := (mem_argsortDesc _ i).mp (List.mem_of_mem_take hi)
        rwa [crowding_distance_length] at this
      have htklen : ((argsortDesc (crowding_distance objs front)).take
          (Nt - selected.length)).length = Nt - selected.length := by
        rw [List.length_take, horderlen]
        exact min_eq_left (by omega)
      have htakemem : ∀ x ∈ ((argsortDesc
          (crowding_distance objs front)).take
          (Nt - selected.length)).map (fun i => front.getD i 0),
          x ∈ front := by
        intro x hx
        rw [List.mem_map] at hx
        obtain ⟨i, hi, rfl⟩ := hx
        have hilt := htake_lt i hi
        rw [List.getD_eq_getElem _ _ hilt]
        exact front.getElem_mem hilt
      refine ⟨?_, ?_, ⟨_, rfl⟩, ?_, ?_⟩
      · rw [List.length_append, List.length_map, htklen]
        omega
      · rw [List.nodup_append]
        refine ⟨hselnd, ?_, ?_⟩
        · exact nodup_map_getD _ _ hfrontnd
            ((List.take_sublist _ _).nodup (argsortDesc_nodup _))
            htake_lt
        · intro a ha hataken
          exact hdisj ha (List.mem_append_left _ (htakemem a hataken))
      · intro k i hi hyp
        exfalso
        match k with
        | 0 =>
          rw [List.take_succ_cons, List.take_zero, List.flatten_cons,
            List.flatten_nil, List.append_nil] at hyp
          omega
        | k' + 1 =>
          rw [List.take_succ_cons, List.flatten_cons,
            List.length_append] at hyp
          omega
      · intro k hyp1 hyp2
        match k with
        | 0 =>
          rw [List.getD_cons_zero, List.take_zero, List.flatten_nil,
            List.length_nil]
          constructor
          · rw [List.filter_append]
            have hfsel : selected.filter
                (fun i => front.contains i) = [] := by
              rw [List.filter_eq_nil_iff]
              intro a ha hcont
              exact hdisj ha
                (List.mem_append_left _ (List.elem_iff.mp hcont))
            have hftaken : (((argsortDesc
                (crowding_distance objs front)).take
                (Nt - selected.length)).map
                (fun i => front.getD i 0)).filter
                (fun i => front.contains i) =
                ((argsortDesc (crowding_distance objs front)).take
                (Nt - selected.length)).map (fun i => front.getD i 0) := by
              rw [List.filter_eq_self]
              intro a ha
              exact List.elem_iff.mpr (htakemem a ha)
            rw [hfsel, hftaken, List.nil_append, List.length_map, htklen]
            omega
          · intro a b halt hblt hain hbout
            have hanotsel : front.getD a 0 ∉ selected := by
              intro hmem
              refine hdisj hmem (List.mem_append_left _ ?_)
              rw [List.getD_eq_getElem _ _ halt]
              exact front.getElem_mem halt
            have hataken : front.getD a 0 ∈ ((argsortDesc
                (crowding_distance objs front)).take
                (Nt - selected.length)).map (fun i => front.getD i 0) := by
              rcases List.mem_append.mp hain with h | h
              · exact absurd h hanotsel
              · exact h
            rw [List.mem_map] at hataken
            obtain ⟨i, hi, heq⟩ := hataken
            have hilt := htake_lt i hi
            have hia : i = a := by
              rw [List.getD_eq_getElem _ _ hilt,
                List.getD_eq_getElem _ _ halt] at heq
              exact (List.Nodup.getElem_inj_iff hfrontnd).mp heq
            rw [hia] at hi
            have hbnot : b ∉ (argsortDesc
                (crowding_distance objs front)).take
                (Nt - selected.length) := by
              intro hbin
              exact hbout (List.mem_append_right _
                (List.mem_map.mpr ⟨b, hbin, rfl⟩))
            have hbmem : b ∈ argsortDesc
                (crowding_distance objs front) := by
              rw [mem_argsortDesc, crowding_distance_length]
              exact hblt
            have hbdrop : b ∈ (argsortDesc
                (crowding_distance objs front)).drop
                (Nt - selected.length) := by
              rw [← List.take_append_drop (Nt - selected.length)
                (argsortDesc (crowding_distance objs front))] at hbmem
              rcases List.mem_append.mp hbmem with h | h
              · exact absurd h hbnot
              · exact h
            exact take_sorted_ge _ _ a b hi hbdrop
        | k' + 1 =>
          exfalso
          rw [List.take_succ_cons, List.flatten_cons,
            List.length_append] at hyp1
          omega

/-- C3.  From a pool of `2N` solutions (`N ≥ 1`), environmental
selection returns exactly `N` indices with no repeats; every front that
fits entirely within the remaining capacity (consuming fronts in rank
order) is fully included; and for the first front that overflows, the
members taken fill the remaining slots exactly and each taken member has
a crowding distance at least as large as every member left out. -/
theorem environmental_selection_spec (objs : List (ℚ × ℚ)) (Nt : ℕ)
    (hlen : objs.length = 2 * Nt) (hNt : 1 ≤ Nt) :
    (environmental_selection objs Nt).length = Nt ∧
    (environmental_selection objs Nt).Nodup ∧
    (∀ k, (((fast_non_dominated_sort objs).take (k + 1)).flatten).length
        ≤ Nt →
      ∀ i ∈ (fast_non_dominated_sort objs).getD k [],
        i ∈ environmental_selection objs Nt) ∧
    (∀ k,
      (((fast_non_dominated_sort objs).take k).flatten).length ≤ Nt →
      Nt < (((fast_non_dominated_sort objs).take (k + 1)).flatten).length →
      (((environmental_selection objs Nt).filter
          (fun i =>
            ((fast_non_dominated_sort objs).getD k []).contains i)).length
        = Nt - (((fast_non_dominated_sort objs).take k).flatten).length) ∧
      ∀ a b, a < ((fast_non_dominated_sort objs).getD k []).length →
        b < ((fast_non_dominated_sort objs).getD k []).length →
        ((fast_non_dominated_sort objs).getD k []).getD a 0 ∈
          environmental_selection objs Nt →
        ((fast_non_dominated_sort objs).getD k []).getD b 0 ∉
          environmental_selection objs Nt →
        (crowding_distance objs
          ((fast_non_dominated_sort objs).getD k [])).getD b ⊤ ≤
        (crowding_distance objs
          ((fast_non_dominated_sort objs).getD k [])).getD a ⊤) := by
  have hmain := peel_correct objs (objs.length + 1) ∅ _ _
    (init_PeelInv objs) (by simp)
  have hndfl : (fast_non_dominated_sort objs).flatten.Nodup := hmain.2.1
  have hmemfl : ∀ j, j ∈ (fast_non_dominated_sort objs).flatten ↔
      j < objs.length := fun j =>
    ⟨fun h => ((hmain.1 j).mp h).1,
      fun h => (hmain.1 j).mpr ⟨h, Finset.not_mem_empty j⟩⟩
  have htf : (fast_non_dominated_sort objs).flatten.toFinset =
      Finset.range objs.length := by
    ext j
    rw [List.mem_toFinset, Finset.mem_range]
    exact hmemfl j
  have hlenfl : (fast_non_dominated_sort objs).flatten.length =
      objs.length := by
    rw [← List.toFinset_card_of_nodup hndfl, htf, Finset.card_range]
  have hspec := selectLoop_spec objs Nt (fast_non_dominated_sort objs) []
    (by rwa [List.nil_append]) (by simp)
    (by rw [List.length_nil, Nat.zero_add, hlenfl, hlen]; omega)
  refine ⟨hspec.1, hspec.2.1, ?_, ?_⟩
  · intro k hk i hi
    exact hspec.2.2.2.1 k i hi
      (by simpa only [List.length_nil, Nat.zero_add] using hk)
  · intro k hk1 hk2
    have hres := hspec.2.2.2.2 k
      (by simpa only [List.length_nil, Nat.zero_add] using hk1)
      (by simpa only [List.length_nil, Nat.zero_add] using hk2)
    refine ⟨?_, hres.2⟩
    have h1 := hres.1
    rw [List.length_nil, Nat.zero_add] at h1
    have henv : environmental_selection objs Nt =
        selectLoop objs Nt (fast_non_dominated_sort objs) [] := rfl
    rw [henv]
    omega

/-- Witness for C3: a pool of two solutions and `N = 1`. -/
theorem environmental_selection_spec_witness :
    (environmental_selection
        ([((0 : ℚ), (0 : ℚ)), ((1 : ℚ), (1 : ℚ))]) 1).length = 1 ∧
      (environmental_selection
        ([((0 : ℚ), (0 : ℚ)), ((1 : ℚ), (1 : ℚ))]) 1).Nodup :=
  ⟨(environmental_selection_spec _ 1 (by decide) (by decide)).1,
    (environmental_selection_spec _ 1 (by decide) (by decide)).2.1⟩

/-! ## Crossover operators (`nsga_methods/crossover.py`)

All five operators act on equal-length bit vectors; the numpy random
draws are injected as explicit arguments (cut points, swap mask,
permutation, choice index). -/

/-- `single_point(p1, p2, rng)` with cut `k` injected (crossover.py
19–39): `c1 = p1[:k] + p2[k:]`, `c2 = p2[:k] + p1[k:]`. -/
def single_point (p1 p2 : List Bool) (k : ℕ) : List Bool × List Bool :=
  (p1.take k ++ p2.drop k, p2.take k ++ p1.drop k)

/-- `two_point` (crossover.py 43–64) with the two sorted cut points
injected: swap the middle segment `[k1, k2)`. -/
def two_point (p1 p2 : List Bool) (k1 k2 : ℕ) : List Bool × List Bool :=
  (p1.take k1 ++ ((p2.drop k1).take (k2 - k1)) ++ p1.drop k2,
    p2.take k1 ++ ((p1.drop k1).take (k2 - k1)) ++ p2.drop k2)

/-- `uniform` (crossover.py 68–88) with the swap mask injected: where
the mask is set, the genes are swapped. -/
def uniformX (p1 p2 : List Bool) (mask : List Bool) :
    List Bool × List Bool :=
  (((p1.zip p2).zip mask).map (fun pm => if pm.2 then pm.1.2 else pm.1.1),
    ((p1.zip p2).zip mask).map (fun pm => if pm.2 then pm.1.1 else pm.1.2))

/-- `shuffle` (crossover.py 92–126) with the permutation and cut
injected: shuffle both parents by `perm`, single-point cross at `k`,
unshuffle through the inverse permutation (`np.argsort(perm)`, i.e. the
index of each position inside `perm`). -/
def shuffleX (p1 p2 : List Bool) (perm : List ℕ) (k : ℕ) :
    List Bool × List Bool :=
  (((List.range p1.length).map (fun t => perm.indexOf t)).map
      (fun i => ((perm.map (fun j => p1.getD j false)).take k ++
        (perm.map (fun j => p2.getD j false)).drop k).getD i false),
    ((List.range p1.length).map (fun t => perm.indexOf t)).map
      (fun i => ((perm.map (fun j => p2.getD j false)).take k ++
        (perm.map (fun j => p1.getD j false)).drop k).getD i false))

/-- `np.where(p1 != p2)[0]`: positions where the parents differ,
in increasing order. -/
def diffPositions (p1 p2 : List Bool) : List ℕ :=
  (List.range p1.length).filter
    (fun i => !(p1.getD i false == p2.getD i false))

/-- `reduced_surrogate` (crossover.py 130–160): identical parents are
returned as copies; otherwise the cut point is drawn from the differing
positions (`rng.choice(diff_positions)`; the draw is injected as an
arbitrary natural `choice`, reduced modulo the number of candidates) and
a single-point crossover is applied there. -/
def reduced_surrogate (p1 p2 : List Bool) (choice : ℕ) :
    List Bool × List Bool :=
  if (diffPositions p1 p2).isEmpty then (p1, p2)
  else
    (p1.take ((diffPositions p1 p2).getD
        (choice % (diffPositions p1 p2).length) 0) ++
      p2.drop ((diffPositions p1 p2).getD
        (choice % (diffPositions p1 p2).length) 0),
      p2.take ((diffPositions p1 p2).getD
        (choice % (diffPositions p1 p2).length) 0) ++
      p1.drop ((diffPositions p1 p2).getD
        (choice % (diffPositions p1 p2).length) 0))

/-- The per-pair random draws of one crossover call. -/
structure CrossTape where
  cut : ℕ
  cut2a : ℕ
  cut2b : ℕ
  mask : List Bool
  perm : List ℕ
  permCut : ℕ
  rsChoice : ℕ

/-- `apply_crossover(p1, p2, op_idx, rng, crossover_rate)` (crossover.py
180–192): with the uniform draw `crossDraw < rate` the selected operator
runs, else the parents are copied.  `op_idx ≥ 5` would raise an
`IndexError` in the source; `select_operator` always returns an index
below `Q = 5`, so the fallback branch returning copies is unreachable
in any run of the program. -/
def apply_crossover (p1 p2 : List Bool) (opIdx : ℕ) (t : CrossTape)
    (crossDraw rate : ℚ) : List Bool × List Bool :=
  if crossDraw < rate then
    match opIdx with
    | 0 => single_point p1 p2 t.cut
    | 1 => two_point p1 p2 (min (t.cut2a + 1) (t.cut2b + 1))
        (max (t.cut2a + 1) (t.cut2b + 1))
    | 2 => uniformX p1 p2 t.mask
    | 3 => shuffleX p1 p2 t.perm t.permCut
    | 4 => reduced_surrogate p1 p2 t.rsChoice
    | _ => (p1, p2)
  else (p1, p2)

/-- C10.  Whenever the cut point drawn by `reduced_surrogate` is the
first position at which the parents differ (`choice % count = 0` picks
the least differing position), the children are bit-identical to the
swapped parents: differing parents do not guarantee a child differing
from both parents. -/
theorem reduced_surrogate_swap (p1 p2 : List Bool) (choice : ℕ)
    (hlen : p1.length = p2.length) (hne : diffPositions p1 p2 ≠ [])
    (hfirst : choice % (diffPositions p1 p2).length = 0) :
    reduced_surrogate p1 p2 choice = (p2, p1) := by
  have hred : reduced_surrogate p1 p2 choice =
      (p1.take ((diffPositions p1 p2).getD
          (choice % (diffPositions p1 p2).length) 0) ++
        p2.drop ((diffPositions p1 p2).getD
          (choice % (diffPositions p1 p2).length) 0),
        p2.take ((diffPositions p1 p2).getD
          (choice % (diffPositions p1 p2).length) 0) ++
        p1.drop ((diffPositions p1 p2).getD
          (choice % (diffPositions p1 p2).length) 0)) := by
    unfold reduced_surrogate
    rw [if_neg (fun h => hne (List.isEmpty_iff.mp h))]
  rw [hred, hfirst]
  obtain ⟨k, tail, hdp⟩ : ∃ k tail, diffPositions p1 p2 = k :: tail := by
    cases hdp : diffPositions p1 p2 with
    | nil => exact absurd hdp hne
    | cons k tail => exact ⟨k, tail, rfl⟩
  rw [hdp, List.getD_cons_zero]
  have hkmem : k ∈ diffPositions p1 p2 := by
    rw [hdp]
    exact List.mem_cons_self k tail
  have hkN : k < p1.length := by
    have := List.mem_of_mem_filter hkmem
    exact List.mem_range.mp this
  have hmin : ∀ i, i < k → p1.getD i false = p2.getD i false := by
    intro i hik
    by_contra hne2
    have hiN : i < p1.length := lt_trans hik hkN
    have himem : i ∈ diffPositions p1 p2 := by
      unfold diffPositions
      rw [List.mem_filter, List.mem_range]
      refine ⟨hiN, ?_⟩
      simp only [Bool.not_eq_eq_eq_not, Bool.not_true, beq_eq_false_iff_ne]
      exact hne2
    rw [hdp] at himem
    rcases List.mem_cons.mp himem with rfl | hitail
    · omega
    · have hsorted : List.Pairwise (fun a b => a < b)
          (diffPositions p1 p2) :=
        (List.pairwise_lt_range p1.length).filter _
      rw [hdp] at hsorted
      have := (List.pairwise_cons.mp hsorted).1 i hitail
      omega
  have htake : p1.take k = p2.take k := by
    refine List.ext_getElem ?_ ?_
    · rw [List.length_take, List.length_take, hlen]
    · intro n h1 h2
      rw [List.getElem_take, List.getElem_take]
      have hn1 : n < p1.length := by
        rw [List.length_take] at h1
        omega
      have hn2 : n < p2.length := by omega
      have hnk : n < k := by
        rw [List.length_take] at h1
        omega
      have := hmin n hnk
      rwa [List.getD_eq_getElem _ _ hn1, List.getD_eq_getElem _ _ hn2]
        at this
  refine Prod.ext ?_ ?_
  · show p1.take k ++ p2.drop k = p2
    rw [htake, List.take_append_drop]
  · show p2.take k ++ p1.drop k = p1
    rw [← htake, List.take_append_drop]

/-- Witness for C10: parents `[1,0]` and `[0,0]` differ only at position
0; the drawn cut 0 returns the swapped parents as children. -/
theorem reduced_surrogate_swap_witness :
    reduced_surrogate [true, false] [false, false] 0 =
      ([false, false], [true, false]) :=
  reduced_surrogate_swap [true, false] [false, false] 0 (by decide)
    (by decide) (by decide)

/-! ## The evolution orchestrator (`MOBGA_AOS`, mobga_aos.py)

The orchestrator's run-scoped state and the generation loop of
`MOBGA_AOS.run` (lines 118–231).  All numpy random draws are injected
through per-pair tapes; the k-NN oracle is abstract.  The unbounded
`while self.nFE < self.max_fes` loop is embedded with fuel; the theorems
below hold for every fuel, hence at every point of the real loop. -/

/-- Random draws consumed by one `uniform_mutation` call. -/
structure MutTape where
  draws : List ℚ
  repairPos : ℕ

/-- Random draws consumed by one pair production: the AOS roulette
outcome, the two parent indices (`rng.choice(N, 2, replace=False)`), the
crossover-rate draw and the operator/mutation randomness. -/
structure PairTape where
  op : ℕ
  pIdx1 : ℕ
  pIdx2 : ℕ
  crossDraw : ℚ
  cross : CrossTape
  mut1 : MutTape
  mut2 : MutTape

/-- The orchestrator's mutable state: population with its objectives,
fitness cache, evaluation counter and AOS state. -/
structure RunState where
  population : List (List Bool)
  objectives : List (ℚ × ℚ)
  cache : List (List Bool × (ℚ × ℚ))
  nFE : ℕ
  aos : AOSState

/-- Steps (b)–(c) of one pair (mobga_aos.py 155–164): sample parents,
apply the chosen crossover, mutate both children. -/
def pairChildren (Pc Pm : ℚ) (pop : List (List Bool)) (t : PairTape) :
    List Bool × List Bool :=
  (uniform_mutation
      (apply_crossover (pop.getD t.pIdx1 []) (pop.getD t.pIdx2 [])
        t.op t.cross t.crossDraw Pc).1 t.mut1.draws t.mut1.repairPos Pm,
    uniform_mutation
      (apply_crossover (pop.getD t.pIdx1 []) (pop.getD t.pIdx2 [])
        t.op t.cross t.crossDraw Pc).2 t.mut2.draws t.mut2.repairPos Pm)

/-- One full pair production (mobga_aos.py 150–179): children are
produced and evaluated cache-aware (first `c1`, then `c2`), credit is
assigned to the operator used, and the children with their objective
pairs are handed back for offspring accumulation. -/
def pairStep (oracle : List Bool → ℚ) (Pc Pm : ℚ) (s : RunState)
    (t : PairTape) :
    RunState × (List Bool × (ℚ × ℚ)) × (List Bool × (ℚ × ℚ)) :=
  ({ population := s.population
     objectives := s.objectives
     cache := (evaluate oracle
       (evaluate oracle ⟨s.cache, s.nFE⟩
         (pairChildren Pc Pm s.population t).1).2
       (pairChildren Pc Pm s.population t).2).2.cache
     nFE := (evaluate oracle
       (evaluate oracle ⟨s.cache, s.nFE⟩
         (pairChildren Pc Pm s.population t).1).2
       (pairChildren Pc Pm s.population t).2).2.nFE
     aos := credit_assignment s.aos
       (s.objectives.getD t.pIdx1 (0, 0))
       (s.objectives.getD t.pIdx2 (0, 0))
       (evaluate oracle ⟨s.cache, s.nFE⟩
         (pairChildren Pc Pm s.population t).1).1
       (evaluate oracle
         (evaluate oracle ⟨s.cache, s.nFE⟩
           (pairChildren Pc Pm s.population t).1).2
         (pairChildren Pc Pm s.population t).2).1
       t.op },
   ((pairChildren Pc Pm s.population t).1,
     (evaluate oracle ⟨s.cache, s.nFE⟩
       (pairChildren Pc Pm s.population t).1).1),
   ((pairChildren Pc Pm s.population t).2,
     (evaluate oracle
       (evaluate oracle ⟨s.cache, s.nFE⟩
         (pairChildren Pc Pm s.population t).1).2
       (pairChildren Pc Pm s.population t).2).1))

/-- Each pair costs at most two budget units: both children of the pair
in flight go through the caching `evaluate`. -/
theorem pairStep_nFE_le (oracle : List Bool → ℚ) (Pc Pm : ℚ)
    (s : RunState) (t : PairTape) :
    (pairStep oracle Pc Pm s t).1.nFE ≤ s.nFE + 2 := by
  have h1 : (evaluate oracle ⟨s.cache, s.nFE⟩
      (pairChildren Pc Pm s.population t).1).2.nFE ≤ s.nFE + 1 :=
    evaluate_nFE_le oracle ⟨s.cache, s.nFE⟩ _
  have h2 : (evaluate oracle
      (evaluate oracle ⟨s.cache, s.nFE⟩
        (pairChildren Pc Pm s.population t).1).2
      (pairChildren Pc Pm s.population t).2).2.nFE ≤
      (evaluate oracle ⟨s.cache, s.nFE⟩
        (pairChildren Pc Pm s.population t).1).2.nFE + 1 :=
    evaluate_nFE_le oracle _ _
  have heq : (pairStep oracle Pc Pm s t).1.nFE = (evaluate oracle
      (evaluate oracle ⟨s.cache, s.nFE⟩
        (pairChildren Pc Pm s.population t).1).2
      (pairChildren Pc Pm s.population t).2).2.nFE := rfl
  rw [heq]
  omega

/-- The offspring pair-production loop (mobga_aos.py 142–179):
`for _ in range(N // 2)` with the budget check `if nFE >= max_fes:
break` before each pair.  The instrumentation `trace` records
`(nFE before, nFE after)` for every pair actually started. -/
def pairLoop (oracle : List Bool → ℚ) (Pc Pm : ℚ) (maxFes : ℕ)
    (gt : ℕ → PairTape) :
    ℕ → ℕ → RunState → List (List Bool) → List (ℚ × ℚ) →
    List (ℕ × ℕ) →
    RunState × List (List Bool) × List (ℚ × ℚ) × List (ℕ × ℕ)
  | 0, _, s, offs, offObjs, trace => (s, offs, offObjs, trace)
  | count + 1, i, s, offs, offObjs, trace =>
    if maxFes ≤ s.nFE then (s, offs, offObjs, trace)
    else
      pairLoop oracle Pc Pm maxFes gt count (i + 1)
        (pairStep oracle Pc Pm s (gt i)).1
        (offs ++ [(pairStep oracle Pc Pm s (gt i)).2.1.1,
          (pairStep oracle Pc Pm s (gt i)).2.2.1])
        (offObjs ++ [(pairStep oracle Pc Pm s (gt i)).2.1.2,
          (pairStep oracle Pc Pm s (gt i)).2.2.2])
        (trace ++ [(s.nFE, (pairStep oracle Pc Pm s (gt i)).1.nFE)])

/-- One iteration of the generation `while` loop (mobga_aos.py 136–216):
pair production, AOS end-of-generation bookkeeping (always, exactly
once), then either the early exit when no offspring were produced
(`Bool` flag `true`) or NSGA-II environmental selection of the next
population from the combined parent+offspring pool. -/
def generationStep (oracle : List Bool → ℚ) (Pc Pm : ℚ) (maxFes N : ℕ)
    (gt : ℕ → PairTape) (s : RunState) :
    RunState × Bool × List (ℕ × ℕ) :=
  if (pairLoop oracle Pc Pm maxFes gt (N / 2) 0 s [] [] []).2.1.isEmpty
  then
    ({ (pairLoop oracle Pc Pm maxFes gt (N / 2) 0 s [] [] []).1 with
        aos := end_generation
          (pairLoop oracle Pc Pm maxFes gt (N / 2) 0 s [] [] []).1.aos },
      true,
      (pairLoop oracle Pc Pm maxFes gt (N / 2) 0 s [] [] []).2.2.2)
  else
    ({ population := (environmental_selection
          ((pairLoop oracle Pc Pm maxFes gt (N / 2) 0 s [] [] []).1.objectives
            ++ (pairLoop oracle Pc Pm maxFes gt (N / 2) 0 s [] [] []).2.2.1)
          N).map (fun i =>
            ((pairLoop oracle Pc Pm maxFes gt (N / 2) 0 s [] [] []).1.population
              ++ (pairLoop oracle Pc Pm maxFes gt (N / 2) 0 s [] [] []).2.1).getD
              i [])
       objectives := (environmental_selection
          ((pairLoop oracle Pc Pm maxFes gt (N / 2) 0 s [] [] []).1.objectives
            ++ (pairLoop oracle Pc Pm maxFes gt (N / 2) 0 s [] [] []).2.2.1)
          N).map (fun i =>
            ((pairLoop oracle Pc Pm maxFes gt (N / 2) 0 s [] [] []).1.objectives
              ++ (pairLoop oracle Pc Pm maxFes gt (N / 2) 0 s [] [] []).2.2.1).getD
              i (0, 0))
       cache := (pairLoop oracle Pc Pm maxFes gt (N / 2) 0 s [] [] []).1.cache
       nFE := (pairLoop oracle Pc Pm maxFes gt (N / 2) 0 s [] [] []).1.nFE
       aos := end_generation
         (pairLoop oracle Pc Pm maxFes gt (N / 2) 0 s [] [] []).1.aos },
      false,
      (pairLoop oracle Pc Pm maxFes gt (N / 2) 0 s [] [] []).2.2.2)

/-- The `while self.nFE < self.max_fes` loop of `MOBGA_AOS.run`,
fuelled; returns the final state and the concatenated pair traces. -/
def runLoop (oracle : List Bool → ℚ) (Pc Pm : ℚ) (maxFes N : ℕ)
    (tape : ℕ → ℕ → PairTape) : ℕ → ℕ → RunState → RunState × List (ℕ × ℕ)
  | 0, _, s => (s, [])
  | fuel + 1, g, s =>
    if s.nFE < maxFes then
      if (generationStep oracle Pc Pm maxFes N (tape g) s).2.1 then
        ((generationStep oracle Pc Pm maxFes N (tape g) s).1,
          (generationStep oracle Pc Pm maxFes N (tape g) s).2.2)
      else
        ((runLoop oracle Pc Pm maxFes N tape fuel (g + 1)
            (generationStep oracle Pc Pm maxFes N (tape g) s).1).1,
          (generationStep oracle Pc Pm maxFes N (tape g) s).2.2 ++
            (runLoop oracle Pc Pm maxFes N tape fuel (g + 1)
              (generationStep oracle Pc Pm maxFes N (tape g) s).1).2)
    else (s, [])

/-- `MOBGA_AOS._evaluate_population`: evaluate all individuals through
the caching layer, threading the cache state. -/
def evalPopulation (oracle : List Bool → ℚ) :
    List (List Bool) → EvalState → List (ℚ × ℚ) × EvalState
  | [], es => ([], es)
  | ind :: rest, es =>
    ((evaluate oracle es ind).1 ::
        (evalPopulation oracle rest (evaluate oracle es ind).2).1,
      (evalPopulation oracle rest (evaluate oracle es ind).2).2)

/-- `MOBGA_AOS.run` (mobga_aos.py 118–231): initialise and evaluate the
population, then run the generation loop; the trace of pair evaluations
is returned alongside the final state. -/
def MOBGA_run (oracle : List Bool → ℚ) (Pc Pm : ℚ) (maxFes N Q LP : ℕ)
    (initRows : List (List Bool)) (initPoss : List ℕ)
    (tape : ℕ → ℕ → PairTape) (fuel : ℕ) : RunState × List (ℕ × ℕ) :=
  runLoop oracle Pc Pm maxFes N tape fuel 0
    { population := init_population initRows initPoss
      objectives := (evalPopulation oracle
        (init_population initRows initPoss) ⟨[], 0⟩).1
      cache := (evalPopulation oracle
        (init_population initRows initPoss) ⟨[], 0⟩).2.cache
      nFE := (evalPopulation oracle
        (init_population initRows initPoss) ⟨[], 0⟩).2.nFE
      aos := AOSState.init Q LP }

theorem pairLoop_trace_sound (oracle : List Bool → ℚ) (Pc Pm : ℚ)
    (maxFes : ℕ) (gt : ℕ → PairTape) :
    ∀ (count i : ℕ) (s : RunState) (offs : List (List Bool))
      (offObjs : List (ℚ × ℚ)) (trace : List (ℕ × ℕ)),
    (∀ e ∈ trace, e.1 < maxFes ∧ e.2 ≤ e.1 + 2) →
    ∀ e ∈ (pairLoop oracle Pc Pm maxFes gt count i s offs offObjs
        trace).2.2.2,
      e.1 < maxFes ∧ e.2 ≤ e.1 + 2 := by
  intro count
  induction count with
  | zero =>
    intro i s offs offObjs trace hacc e he
    exact hacc e he
  | succ count ih =>
    intro i s offs offObjs trace hacc e he
    unfold pairLoop at he
    by_cases hb : maxFes ≤ s.nFE
    · rw [if_pos hb] at he
      exact hacc e he
    · rw [if_neg hb] at he
      refine ih (i + 1) _ _ _ _ ?_ e he
      intro e' he'
      rcases List.mem_append.mp he' with h | h
      · exact hacc e' h
      · rcases List.mem_cons.mp h with rfl | h2
        · exact ⟨by omega, pairStep_nFE_le oracle Pc Pm s (gt i)⟩
        · exact absurd h2 (List.not_mem_nil e')

theorem generationStep_trace (oracle : List Bool → ℚ) (Pc Pm : ℚ)
    (maxFes N : ℕ) (gt : ℕ → PairTape) (s : RunState) :
    (generationStep oracle Pc Pm maxFes N gt s).2.2 =
      (pairLoop oracle Pc Pm maxFes gt (N / 2) 0 s [] [] []).2.2.2 := by
  unfold generationStep
  by_cases h : (pairLoop oracle Pc Pm maxFes gt (N / 2) 0 s
      [] [] []).2.1.isEmpty = true
  · rw [if_pos h]
  · rw [if_neg h]

theorem runLoop_trace_sound (oracle : List Bool → ℚ) (Pc Pm : ℚ)
    (maxFes N : ℕ) (tape : ℕ → ℕ → PairTape) :
    ∀ (fuel g : ℕ) (s : RunState),
    ∀ e ∈ (runLoop oracle Pc Pm maxFes N tape fuel g s).2,
      e.1 < maxFes ∧ e.2 ≤ e.1 + 2 := by
  intro fuel
  induction fuel with
  | zero =>
    intro g s e he
    exact absurd he (List.not_mem_nil e)
  | succ fuel ih =>
    intro g s e he
    unfold runLoop at he
    by_cases hb : s.nFE < maxFes
    · rw [if_pos hb] at he
      by_cases hstop :
          (generationStep oracle Pc Pm maxFes N (tape g) s).2.1 = true
      · rw [if_pos hstop] at he
        rw [generationStep_trace] at he
        exact pairLoop_trace_sound oracle Pc Pm maxFes (tape g) (N / 2)
          0 s [] [] [] (fun e' he' => absurd he' (List.not_mem_nil e'))
          e he
      · rw [if_neg hstop] at he
        rcases List.mem_append.mp he with h | h
        · rw [generationStep_trace] at h
          exact pairLoop_trace_sound oracle Pc Pm maxFes (tape g) (N / 2)
            0 s [] [] [] (fun e' he' => absurd he' (List.not_mem_nil e'))
            e h
        · exact ih (g + 1) _ e h
    · rw [if_neg hb] at he
      exact absurd he (List.not_mem_nil e)

/-- C8.  In every run (any oracle, rates, tape, fuel and start state),
every pair production of the generation loop starts only while
`nFE < max_fes` (the budget is checked before each pair, not only at
generation boundaries), and immediately after any pair the counter is at
most `max_fes + 2` — the budget is never overshot by more than the two
children of the pair in flight.  The first conjunct covers the full
`run` from initialisation; the second covers the loop from any state. -/
theorem run_budget_soundness (oracle : List Bool → ℚ) (Pc Pm : ℚ)
    (maxFes N Q LP : ℕ) (initRows : List (List Bool))
    (initPoss : List ℕ) (tape : ℕ → ℕ → PairTape) (fuel g : ℕ)
    (s : RunState) :
    ((MOBGA_run oracle Pc Pm maxFes N Q LP initRows initPoss tape
        fuel).2.all
      (fun e => decide (e.1 < maxFes ∧ e.2 ≤ maxFes + 2)) = true) ∧
    ((runLoop oracle Pc Pm maxFes N tape fuel g s).2.all
      (fun e => decide (e.1 < maxFes ∧ e.2 ≤ maxFes + 2)) = true) := by
  constructor
  · rw [List.all_eq_true]
    intro e he
    have := runLoop_trace_sound oracle Pc Pm maxFes N tape fuel 0 _ e he
    rw [decide_eq_true_eq]
    exact ⟨this.1, by omega⟩
  · rw [List.all_eq_true]
    intro e he
    have := runLoop_trace_sound oracle Pc Pm maxFes N tape fuel g s e he
    rw [decide_eq_true_eq]
    exact ⟨this.1, by omega⟩

/-- The configuration assembled by `MOBGA_AOS.__init__`
(mobga_aos.py 24–51). -/
structure MOBGAConfig where
  D : ℕ
  max_fes : ℕ
  N : ℕ
  Pc : ℚ
  Pm : ℚ
  aos : AOSState

/-- `MOBGA_AOS.__init__` modelled as `Except` so that accept/reject is
observable.  The source constructor performs no validation at all; its
only possible failure is the `ZeroDivisionError` of `Pm = 1.0 /
n_features` when `n_features = 0`.  In particular `max_fes = 0` is
accepted without complaint. -/
def mobga_init (n_features max_fes pop_size : ℕ) (crossover_rate : ℚ)
    (Q LP : ℕ) : Except String MOBGAConfig :=
  if n_features = 0 then .error "ZeroDivisionError"
  else .ok
    { D := n_features
      max_fes := max_fes
      N := pop_size
      Pc := crossover_rate
      Pm := 1 / (n_features : ℚ)
      aos := AOSState.init Q LP }

/-- Counterexample to C9 as stated: constructing with `max_fes = 0`
(here `n_features = 10`, `pop_size = 100`, the paper's `Pc`, `Q`, `LP`)
succeeds — the constructor does not reject a zero evaluation budget. -/
theorem mobga_init_zero_budget_accepted :
    (mobga_init 10 0 100 (9 / 10) 5 5).isOk = true := rfl

/-- C9 (amended).  Construction with `max_fes = 0` is not rejected: the
constructor succeeds, and the generation loop of `run` exits immediately
(`while nFE < 0` never holds), performing no generation iteration and
producing no pair evaluation, so `run` returns the front of the
initial population evaluated during initialisation. -/
theorem zero_budget_run_behavior :
    (mobga_init 10 0 100 (9 / 10) 5 5).isOk = true ∧
    ∀ (oracle : List Bool → ℚ) (Pc Pm : ℚ) (N : ℕ)
      (tape : ℕ → ℕ → PairTape) (fuel g : ℕ) (s : RunState),
      runLoop oracle Pc Pm 0 N tape fuel g s = (s, []) := by
  refine ⟨rfl, ?_⟩
  intro oracle Pc Pm N tape fuel g s
  cases fuel with
  | zero => rfl
  | succ fuel =>
    unfold runLoop
    rw [if_neg (by omega)]

end MOBGA
